import Mathlib

/-!
# Verification of the `ec_cryptography` elliptic-curve core

A shallow embedding of the repository's prime-field and elliptic-curve code
(`src/ec_cryptography/src/lib.rs`), together with proofs of the specified
properties.  `rug::Integer` is modelled by `Int`; `rem_euc` is `Int.emod`
(Lean's `%` on `Int`), which always returns a value in `[0, |m|)` for a
nonzero modulus, exactly as `rem_euc` does for a positive modulus.

The `finite_fields::FieldElement` library and `s256_field.rs` are not part
of the sources; their operations are modelled from the specification
(§4.1, §4.3) and marked as such in their doc comments.
-/

instance {ε α : Type _} [DecidableEq ε] [DecidableEq α] : DecidableEq (Except ε α)
  | .error e, .error f =>
    if h : e = f then .isTrue (by rw [h])
    else .isFalse (by intro hc; cases hc; exact h rfl)
  | .error _, .ok _ => .isFalse (by intro hc; cases hc)
  | .ok _, .error _ => .isFalse (by intro hc; cases hc)
  | .ok a, .ok b =>
    if h : a = b then .isTrue (by rw [h])
    else .isFalse (by intro hc; cases hc; exact h rfl)

/-- The error kinds of the specification (§7).  Rust-side panics
(`assert!` failures, `Option::unwrap` on `None`) are modelled as errors:
`PointNotOnCurve` for the constructor assertion, `CurveMismatch` for the
same-curve assertion in `add`, and the extra constructor `UnwrapNone` for a
plain `unwrap` panic on a missing coordinate. -/
inductive ECError where
  | InvalidModulus
  | FieldMismatch
  | DivisionByZero
  | PointNotOnCurve
  | MalformedPoint
  | CurveMismatch
  | MalformedSignature
  | InvalidSignature
  | UnwrapNone
deriving DecidableEq, Repr

/-- Fuel-driven binary modular exponentiation: `powModAux fuel b e m`
computes `b ^ e % m` by square-and-multiply provided `e < 2 ^ fuel`.  The
body is phrased with the primitive `Nat` operations so that kernel
evaluation on the 256-bit curve constants stays on the accelerated
arithmetic path. -/
def powModAux : Nat → Nat → Nat → Nat → Nat
  | 0, _, _, m => 1 % m
  | _ + 1, _, 0, m => 1 % m
  | fuel + 1, b, e + 1, m =>
    let h := powModAux fuel b ((e + 1) / 2) m
    Nat.mod (Nat.mul (Nat.mod (Nat.mul h h) m) (Nat.pow b (Nat.mod (e + 1) 2))) m

/-- Modular exponentiation `b ^ e % m`, computed by square-and-multiply on
the base reduced into `[0, m)`.  For a non-positive modulus (never reached
by the curve code, whose moduli are the positive curve primes) the
mathematical value is returned directly.  `e + 1` units of fuel always
suffice since `e < 2 ^ (e + 1)`. -/
def powMod (b : Int) (e : Nat) (m : Int) : Int :=
  match m.toNat with
  | 0 => b ^ e % m
  | mm + 1 => (powModAux (e + 1) ((b % m).toNat) e (mm + 1) : Nat)

/-- Modelled from the spec (§4.1): the `finite_fields::FieldElement` crate is
not under the sources, only its callers.  A field element is a value together
with the prime modulus of its field. -/
structure FieldElement where
  num : Int
  prime : Int
deriving DecidableEq, Repr

namespace FieldElement

/-- Modelled from the spec (§4.1): `new(value, prime)` reduces `value` into
`[0, prime)` by a Euclidean remainder.  (The `InvalidModulus` failure for
`prime ≤ 1` is never exercised by the curve code, whose moduli are the fixed
curve primes; the embedding keeps `new` total.) -/
def new (num prime : Int) : FieldElement :=
  ⟨num % prime, prime⟩

/-- The modulus accessor (`order()` in the Rust code). -/
def order (a : FieldElement) : Int :=
  a.prime

/-- Modelled from the spec (§4.1): modular exponentiation for non-negative
integer exponents. -/
def pow (a : FieldElement) (e : Nat) : FieldElement :=
  ⟨powMod a.num e a.prime, a.prime⟩

/-- Modelled from the spec (§4.1): addition modulo the prime.  The spec
requires equal primes on both operands (`FieldMismatch` otherwise); every
use in the curve code combines elements of one field, and the embedding
computes with the left operand's modulus. -/
instance : Add FieldElement :=
  ⟨fun a b => ⟨(a.num + b.num) % a.prime, a.prime⟩⟩

/-- Modelled from the spec (§4.1): multiplication modulo the prime, under
the same equal-prime precondition as addition. -/
instance : Mul FieldElement :=
  ⟨fun a b => ⟨a.num * b.num % a.prime, a.prime⟩⟩

/-- Modelled from the spec (§4.1): subtraction modulo the prime, under the
same equal-prime precondition as addition. -/
instance : Sub FieldElement :=
  ⟨fun a b => ⟨(a.num - b.num) % a.prime, a.prime⟩⟩

/-- Modelled from the spec (§4.1): the multiplicative inverse
`value ^ (prime − 2) mod prime` (Fermat), failing with `DivisionByZero` on
the zero element. -/
def inverse (a : FieldElement) : Except ECError FieldElement :=
  if a.num = 0 then .error .DivisionByZero
  else .ok ⟨powMod a.num (a.prime - 2).toNat a.prime, a.prime⟩

/-- Modelled from the spec (§4.1): `div(other)` is `self * other.inverse()`,
propagating `DivisionByZero`. -/
def div (a b : FieldElement) : Except ECError FieldElement := do
  let bi ← b.inverse
  pure (a * bi)

end FieldElement

/-- The curve-point type of `ec_cryptography/src/lib.rs`: optional
coordinates (both absent encodes the point at infinity) and the curve
constants `a`, `b`. -/
structure EllipticCurve where
  x : Option FieldElement
  y : Option FieldElement
  a : FieldElement
  b : FieldElement
deriving DecidableEq, Repr

namespace EllipticCurve

/-- The `prime()` accessor: the field modulus, read off the constant `a`. -/
def prime (self : EllipticCurve) : Int :=
  self.a.order

/-- The `is_valid()` check: vacuously true when a coordinate is absent, otherwise the
curve equation `y² = x³ + a·x + b` over the field. -/
def is_valid (self : EllipticCurve) : Bool :=
  match self.x, self.y with
  | some x, some y => decide (y.pow 2 = x.pow 3 + self.a * x + self.b)
  | _, _ => true

/-- The constructor `new(x, y, a, b)`: the identity when both coordinates are absent,
otherwise the point guarded by the `is_valid` assertion (an assertion
failure is modelled as the `PointNotOnCurve` error). -/
def new (x y : Option FieldElement) (a b : FieldElement) :
    Except ECError EllipticCurve :=
  match x, y with
  | none, none => .ok ⟨none, none, a, b⟩
  | _, _ =>
    let point : EllipticCurve := ⟨x, y, a, b⟩
    if point.is_valid then .ok point else .error .PointNotOnCurve

/-- The `slope(other)` method: the chord slope
`(y₂ − y₁) / (x₂ − x₁)` computed with Euclidean remainders and field
division; `none` when both points are at infinity. -/
def slope (self other : EllipticCurve) : Except ECError (Option FieldElement) :=
  if self.x = none ∧ other.x = none then .ok none
  else
    match other.y, self.y, other.x, self.x with
    | some oy, some sy, some ox, some sx =>
      let numerator := (oy.num - sy.num) % self.prime
      let denominator := (ox.num - sx.num) % self.prime
      (FieldElement.div (FieldElement.new numerator self.prime)
        (FieldElement.new denominator self.prime)).map some
    | _, _, _, _ => .error .UnwrapNone

/-- The `tangent_slope()` method: the tangent slope `(3·x² + a) / (2·y)` computed with
Euclidean remainders and field division; `none` at infinity. -/
def tangent_slope (self : EllipticCurve) : Except ECError (Option FieldElement) :=
  if self.x = none then .ok none
  else
    match self.x, self.y with
    | some sx, some sy =>
      let x_pow := sx.num ^ 2 % self.prime
      let numerator := (3 * x_pow % self.prime + self.a.num) % self.prime
      let denominator := 2 * sy.num % self.prime
      (FieldElement.div (FieldElement.new numerator self.prime)
        (FieldElement.new denominator self.prime)).map some
    | _, _ => .error .UnwrapNone

/-- The `identity()` method: the point at infinity on the same curve (the Rust code
builds it through `new(None, None, a, b)`, which returns it
unconditionally). -/
def identity (self : EllipticCurve) : EllipticCurve :=
  ⟨none, none, self.a, self.b⟩

/-- The `Add` implementation: the group-law case analysis of the Rust
code, with the same-curve assertion modelled as `CurveMismatch`. -/
def add (self other : EllipticCurve) : Except ECError EllipticCurve :=
  if ¬(self.a = other.a ∧ self.b = other.b) then .error .CurveMismatch
  else if other.x = none then .ok self
  else if self.x = none then .ok other
  else if self.x ≠ other.x then
    match slope self other with
    | .error e => .error e
    | .ok none => .error .UnwrapNone
    | .ok (some s) =>
      match self.x, other.x, self.y with
      | some x1f, some x2f, some y1f =>
        let x1 := x1f.num
        let x2 := x2f.num
        let y1 := y1f.num
        let x3 := ((s.pow 2).num - x1 - x2) % self.prime
        let y3 := (s.num * (x1 - x3) % self.prime - y1) % self.prime
        new (some (FieldElement.new x3 self.prime))
          (some (FieldElement.new y3 self.prime)) self.a self.b
      | _, _, _ => .error .UnwrapNone
  else if self = other then
    match self.y with
    | some y1f =>
      if y1f.num = 0 then .ok self.identity
      else
        match tangent_slope self with
        | .error e => .error e
        | .ok none => .error .UnwrapNone
        | .ok (some s) =>
          match self.x with
          | some x1f =>
            let x1 := x1f.num
            let y1 := y1f.num
            let x3 := (s.num ^ 2 % self.prime - 2 * x1 % self.prime) % self.prime
            let y3 := (s.num * (x1 - x3) % self.prime - y1) % self.prime
            new (some (FieldElement.new x3 self.prime))
              (some (FieldElement.new y3 self.prime)) self.a self.b
          | none => .error .UnwrapNone
    | none => .error .UnwrapNone
  else .ok self.identity

/-- The loop body of `scalar_mul`, driven by explicit fuel; the Rust loop
runs while the scalar is strictly positive, testing the low bit, adding
`current` into `result` on a set bit, doubling `current`, and shifting. -/
def scalarMulGo : Nat → Int → EllipticCurve → EllipticCurve →
    Except ECError EllipticCurve
  | 0, _, _, result => .ok result
  | fuel + 1, scalar, current, result =>
    if scalar > 0 then
      match (if scalar % 2 = 1 then add result current else .ok result) with
      | .error e => .error e
      | .ok result' =>
        match add current current with
        | .error e => .error e
        | .ok current' => scalarMulGo fuel (scalar / 2) current' result'
    else .ok result

/-- The `scalar_mul(coefficient)` method: double-and-add with accumulator initialised
to the identity.  `coefficient.toNat + 1` units of fuel always cover the
loop, which runs at most `log₂ coefficient + 1` times. -/
def scalar_mul (self : EllipticCurve) (coefficient : Int) :
    Except ECError EllipticCurve :=
  scalarMulGo (coefficient.toNat + 1) coefficient self self.identity

/-- The secp256k1 field prime `p = 2²⁵⁶ − 2³² − 977`, written as a numeral
so that the kernel reads it off in one step; `secpPrime_value` below checks
it against the arithmetic expression used by the Rust sources. -/
def secpPrime : Int :=
  0xfffffffffffffffffffffffffffffffffffffffffffffffffffffffefffffc2f

/-- The `secp_point(x, y)` constructor: a point on the secp256k1 curve `y² = x³ + 7`. -/
def secp_point (x y : Int) : Except ECError EllipticCurve :=
  EllipticCurve.new (some (FieldElement.new x secpPrime))
    (some (FieldElement.new y secpPrime))
    (FieldElement.new 0 secpPrime) (FieldElement.new 7 secpPrime)

end EllipticCurve

/-- The order `n` of the secp256k1 generator subgroup, as in the sources. -/
def secpOrder : Int :=
  0xfffffffffffffffffffffffffffffffebaaedce6af48a03bbfd25e8cd0364141

/-- Modelled from the spec (§4.3): `s256_field::secp_generator_point` is not
under the sources.  The generator `G` of secp256k1 with its published
coordinates (the same constants appear in the repository's tests). -/
def secp_generator_point : EllipticCurve :=
  ⟨some (FieldElement.new
      0x79be667ef9dcbbac55a06295ce870b07029bfcdb2dce28d959f2815b16f81798
      EllipticCurve.secpPrime),
   some (FieldElement.new
      0x483ada7726a3c4655da4fbfc0e1108a8fd17b448a68554199c47d08ffb10d4b8
      EllipticCurve.secpPrime),
   FieldElement.new 0 EllipticCurve.secpPrime,
   FieldElement.new 7 EllipticCurve.secpPrime⟩

/-- Modelled from the spec (§4.4): the repository has no `SignatureVerifier`
component under the sources — only the inline verification in its tests.
The verifier rejects `r ≡ 0` or `s ≡ 0 (mod n)` as `MalformedSignature`,
computes `u = z/s`, `v = r/s (mod n)`, forms `R = u·G + v·P`, fails with
`InvalidSignature` when `R` is the identity, and otherwise succeeds exactly
when `R.x` reduced into `[0, n)` equals `r (mod n)`. -/
def verify (z r s : Int) (pubkey : EllipticCurve) : Except ECError Unit :=
  let n := secpOrder
  let rF := FieldElement.new r n
  let sF := FieldElement.new s n
  let zF := FieldElement.new z n
  if rF.num = 0 ∨ sF.num = 0 then .error .MalformedSignature
  else do
    let u ← FieldElement.div zF sF
    let v ← FieldElement.div rF sF
    let uG ← secp_generator_point.scalar_mul u.num
    let vP ← pubkey.scalar_mul v.num
    let R ← uG.add vP
    match R.x with
    | none => .error .InvalidSignature
    | some Rx => if Rx.num % n = rF.num then .ok () else .error .InvalidSignature

/-- The spec's reference description of scalar multiplication (§2 glossary,
C6): the `k`-fold repeated group addition of a point with itself, starting
from the identity.  Used solely as the comparison point for the
double-and-add refinement. -/
def repeated_add (P : EllipticCurve) : Nat → Except ECError EllipticCurve
  | 0 => .ok P.identity
  | k + 1 => do
    let prev ← repeated_add P k
    prev.add P

/-! ## The concrete secp256k1 signature vector of the repository's tests -/

/-- The message hash `z` of `tests::test_secp_signature_verfication`. -/
def sigZ : Int :=
  0x7c076ff316692a3d7eb3c3bb0f8b1488cf72e1afcd929e29307032997a838a3d

/-- The signature component `r` of the test vector. -/
def sigR : Int :=
  0xeff69ef2b1bd93a66ed5219add4fb51e11a840f404876325a1e8ffe0529a2c

/-- The signature component `s` of the test vector. -/
def sigS : Int :=
  0xc7207fee197d27c618aea621406f6bf5ef6fca38681d82b2f06fddbdce6feab6

/-- The public-key point of the test vector (an on-curve secp256k1 point). -/
def sigPubkey : EllipticCurve :=
  ⟨some (FieldElement.new
      0x887387e452b8eacc4acfde10d9aaf7f6d9a0f975aabb10d006e4da568744d06c
      EllipticCurve.secpPrime),
   some (FieldElement.new
      0x61de6d95231cd89026e286df3b6ae4a894a3378e393e93a0f45b666329a0ae34
      EllipticCurve.secpPrime),
   FieldElement.new 0 EllipticCurve.secpPrime,
   FieldElement.new 7 EllipticCurve.secpPrime⟩

/-- A field element of the small test curve `prime = 223`, `a = 0`, `b = 7`. -/
def fe223 (n : Int) : FieldElement :=
  FieldElement.new n 223

/-- A point constructor on the small test curve `prime = 223`, `a = 0`,
`b = 7` used by the repository's tests. -/
def pt223 (x y : Int) : Except ECError EllipticCurve :=
  EllipticCurve.new (some (fe223 x)) (some (fe223 y)) (fe223 0) (fe223 7)


/-! ## Well-formedness predicates and the `ZMod` view -/

/-- A field element of the `p`-element field is well formed when its modulus
is `p` and its value is reduced into `[0, p)`. -/
@[reducible]
def feWF (p : Nat) (f : FieldElement) : Prop :=
  f.prime = (p : Int) ∧ 0 ≤ f.num ∧ f.num < (p : Int)

/-- Structural well-formedness of a curve point over the `p`-element field:
the curve constants carry modulus `p` and the coordinates are either both
absent or both present and reduced (which is how every point built by the
constructor from reduced inputs looks). -/
@[reducible]
def Reduced (p : Nat) (P : EllipticCurve) : Prop :=
  P.a.prime = (p : Int) ∧ P.b.prime = (p : Int) ∧
    match P.x, P.y with
    | none, none => True
    | some xf, some yf => feWF p xf ∧ feWF p yf
    | _, _ => False

/-- The short Weierstrass curve `y² = x³ + a·x + b` over `ZMod p` cut out by
the curve constants. -/
def toW (p : Nat) (aF bF : FieldElement) : WeierstrassCurve.Affine (ZMod p) :=
  { a₁ := 0, a₂ := 0, a₃ := 0, a₄ := (aF.num : ZMod p), a₆ := (bF.num : ZMod p) }

/-- The point is a nonsingular point of the curve over `ZMod p` (vacuous at
the identity). -/
def NonsingularPt (p : Nat) (P : EllipticCurve) : Prop :=
  match P.x, P.y with
  | none, none => True
  | some xf, some yf => (toW p P.a P.b).Nonsingular (xf.num : ZMod p) (yf.num : ZMod p)
  | _, _ => False

/-- The abstraction relation between an embedded curve value and a
nonsingular rational point of the corresponding Weierstrass curve: the
identity corresponds to the zero point, a finite point to `Point.some` at
its coordinates. -/
def RelPt (p : Nat) (aF bF : FieldElement) (P : EllipticCurve)
    (pt : (toW p aF bF).Point) : Prop :=
  (P.x = none ∧ P.y = none ∧ pt = 0) ∨
  (∃ (xf yf : FieldElement)
      (h : (toW p aF bF).Nonsingular (xf.num : ZMod p) (yf.num : ZMod p)),
      P.x = some xf ∧ P.y = some yf ∧
        pt = WeierstrassCurve.Affine.Point.some h)

/-! ## Arithmetic bridge lemmas -/

theorem secpPrime_value : EllipticCurve.secpPrime = 2 ^ 256 - 2 ^ 32 - 977 := by
  norm_num [EllipticCurve.secpPrime]

theorem powModAux_eq (fuel : Nat) :
    ∀ (b e m : Nat), e < 2 ^ fuel →
      powModAux fuel b e m = b ^ e % m := by
  induction fuel with
  | zero =>
    intro b e m he
    have : e = 0 := by omega
    subst this
    simp [powModAux]
  | succ n ih =>
    intro b e m he
    match e with
    | 0 => simp [powModAux]
    | e' + 1 =>
      have hlt : (e' + 1) / 2 < 2 ^ n :=
        Nat.div_lt_of_lt_mul (by rw [← pow_succ']; exact he)
      have hA : ((b ^ ((e' + 1) / 2)) % m) ≡ b ^ ((e' + 1) / 2) [MOD m] :=
        Nat.mod_modEq _ m
      have hsq : ((b ^ ((e' + 1) / 2)) % m) * ((b ^ ((e' + 1) / 2)) % m) % m
          ≡ b ^ ((e' + 1) / 2) * b ^ ((e' + 1) / 2) [MOD m] :=
        (Nat.mod_modEq _ m).trans (hA.mul hA)
      have hfin : ((b ^ ((e' + 1) / 2)) % m) * ((b ^ ((e' + 1) / 2)) % m) % m
            * b ^ ((e' + 1) % 2)
          ≡ b ^ ((e' + 1) / 2) * b ^ ((e' + 1) / 2) * b ^ ((e' + 1) % 2)
            [MOD m] := hsq.mul_right _
      show Nat.mod (Nat.mul (Nat.mod
          (Nat.mul (powModAux n b ((e' + 1) / 2) m) (powModAux n b ((e' + 1) / 2) m)) m)
          (Nat.pow b (Nat.mod (e' + 1) 2))) m = b ^ (e' + 1) % m
      rw [ih b ((e' + 1) / 2) m hlt]
      calc ((b ^ ((e' + 1) / 2)) % m) * ((b ^ ((e' + 1) / 2)) % m) % m
            * b ^ ((e' + 1) % 2) % m
          = b ^ ((e' + 1) / 2) * b ^ ((e' + 1) / 2) * b ^ ((e' + 1) % 2) % m := by
            exact hfin
        _ = b ^ (e' + 1) % m := by
            rw [← pow_add, ← pow_add]
            have h3 : (e' + 1) / 2 + (e' + 1) / 2 + (e' + 1) % 2 = e' + 1 := by
              omega
            rw [h3]

/-- The function `powMod` computes modular exponentiation. -/
theorem powMod_eq (b : Int) (e : Nat) (m : Int) : powMod b e m = b ^ e % m := by
  rcases hmt : m.toNat with _ | mm
  · simp [powMod, hmt]
  · have hm : (0 : Int) < m := by omega
    have hb0 : 0 ≤ b % m := Int.emod_nonneg b (by omega)
    have hbr : (((b % m).toNat : Nat) : Int) = b % m := Int.toNat_of_nonneg hb0
    have haux := powModAux_eq (e + 1) ((b % m).toNat) e (mm + 1)
      (Nat.lt_of_lt_of_le (Nat.lt_two_pow _)
        (Nat.pow_le_pow_right (by norm_num) (Nat.le_succ _)))
    have hmm2 : ((mm : Int) + 1) = m := by omega
    have hcast : ((((b % m).toNat ^ e % (mm + 1) : Nat)) : Int)
        = (b % m) ^ e % m := by
      push_cast
      rw [hbr, hmm2]
    have hbm : (b % m) ≡ b [ZMOD m] := Int.emod_emod_of_dvd _ dvd_rfl
    have hme : (b % m) ^ e % m = b ^ e % m := by
      exact hbm.pow e
    calc powMod b e m
        = (((powModAux (e + 1) ((b % m).toNat) e (mm + 1) : Nat)) : Int) := by
          simp [powMod, hmt]
      _ = b ^ e % m := by rw [haux, hcast, hme]

/-- If the scalar is not positive, the double-and-add loop never runs. -/
theorem scalarMulGo_nonpos (fuel : Nat) (k : Int) (c r : EllipticCurve)
    (hk : ¬0 < k) : EllipticCurve.scalarMulGo fuel k c r = .ok r := by
  cases fuel with
  | zero => rfl
  | succ n => simp [EllipticCurve.scalarMulGo, if_neg hk]

/-- C10: for every negative coefficient `k` and every point `P`,
`scalar_mul(k, P)` returns the identity without error: the double-and-add
loop runs only while the scalar is strictly positive, so a negative
coefficient is silently treated as zero. -/
theorem scalar_mul_neg_coefficient (P : EllipticCurve) (k : Int) (hk : k < 0) :
    P.scalar_mul k = .ok P.identity := by
  rw [EllipticCurve.scalar_mul]
  exact scalarMulGo_nonpos _ k P P.identity (by omega)

/-- Witness for C10 at `k = −1`, `P = G`. -/
theorem scalar_mul_neg_coefficient_witness :
    (-1 : Int) < 0 ∧
      secp_generator_point.scalar_mul (-1) = .ok secp_generator_point.identity :=
  ⟨by decide, scalar_mul_neg_coefficient secp_generator_point (-1) (by decide)⟩

/-- C3 (code divergence): the constructor does NOT reject a point with
exactly one coordinate present.  `is_valid` returns `true` whenever either
coordinate is absent, so `new` accepts half-points instead of failing with
`MalformedPoint`: shown here both generally and at a concrete input on the
small test curve. -/
theorem new_accepts_half_points :
    (∀ x a b : FieldElement,
        EllipticCurve.new (some x) none a b = .ok ⟨some x, none, a, b⟩) ∧
      (∀ y a b : FieldElement,
        EllipticCurve.new none (some y) a b = .ok ⟨none, some y, a, b⟩) ∧
      EllipticCurve.new (some (fe223 1)) none (fe223 0) (fe223 7)
        = .ok ⟨some (fe223 1), none, fe223 0, fe223 7⟩ ∧
      EllipticCurve.new none (some (fe223 1)) (fe223 0) (fe223 7)
        = .ok ⟨none, some (fe223 1), fe223 0, fe223 7⟩ :=
  ⟨fun _ _ _ => rfl, fun _ _ _ => rfl, rfl, rfl⟩

/-- C2: the modelled signature verifier rejects `r ≡ 0` or `s ≡ 0 (mod n)`
with `MalformedSignature` for an arbitrary public-key point (the rejection
happens before any curve computation touches `P`), and this outcome is a
distinct error constructor from `InvalidSignature`. -/
theorem verify_rejects_zero_r_s (z r s : Int) (P : EllipticCurve)
    (h : r % secpOrder = 0 ∨ s % secpOrder = 0) :
    verify z r s P = .error .MalformedSignature ∧
      ECError.MalformedSignature ≠ ECError.InvalidSignature := by
  refine ⟨?_, by decide⟩
  rcases h with h | h <;> simp [verify, FieldElement.new, h]

/-- Witness for C2 at `r = 0`. -/
theorem verify_rejects_zero_r_s_witness :
    ((0 : Int) % secpOrder = 0 ∨ (1 : Int) % secpOrder = 0) ∧
      (verify 1 0 1 sigPubkey = .error .MalformedSignature ∧
        ECError.MalformedSignature ≠ ECError.InvalidSignature) :=
  ⟨Or.inl (by decide), verify_rejects_zero_r_s 1 0 1 sigPubkey (Or.inl (by decide))⟩

/-- C1: for nonzero `r`, `s (mod n)` the modelled secp256k1 verifier
computes `u = z/s`, `v = r/s (mod n)`, forms `R = u·G + v·P` over the
curve, and succeeds exactly when `R` is finite and `R.x` reduced into
`[0, n)` equals `r (mod n)`; and the fixed `(z, r, s, pubkey)` test vector
of the repository verifies successfully. -/
theorem verify_secp_signature (z r s : Int) (P : EllipticCurve)
    (hr : r % secpOrder ≠ 0) (hs : s % secpOrder ≠ 0) :
    (verify z r s P = do
        let u ← FieldElement.div (FieldElement.new z secpOrder)
          (FieldElement.new s secpOrder)
        let v ← FieldElement.div (FieldElement.new r secpOrder)
          (FieldElement.new s secpOrder)
        let uG ← secp_generator_point.scalar_mul u.num
        let vP ← P.scalar_mul v.num
        let R ← uG.add vP
        match R.x with
        | none => Except.error ECError.InvalidSignature
        | some Rx =>
          if Rx.num % secpOrder = r % secpOrder then Except.ok ()
          else Except.error ECError.InvalidSignature) ∧
      verify sigZ sigR sigS sigPubkey = .ok () := by
  constructor
  · have hcond : ¬((FieldElement.new r secpOrder).num = 0 ∨
        (FieldElement.new s secpOrder).num = 0) := by
      intro hc
      rcases hc with hc | hc
      · exact hr hc
      · exact hs hc
    unfold verify
    rw [if_neg hcond]
    rfl
  · decide!

/-- Witness for C1 at the repository's fixed test vector. -/
theorem verify_secp_signature_witness :
    sigR % secpOrder ≠ 0 ∧ sigS % secpOrder ≠ 0 ∧
      verify sigZ sigR sigS sigPubkey = .ok () :=
  ⟨by decide, by decide,
    (verify_secp_signature sigZ sigR sigS sigPubkey (by decide) (by decide)).2⟩

/-! ## Casting the embedded integer arithmetic into `ZMod p` -/

theorem intCast_emod_self (p : Nat) (a : Int) :
    ((a % (p : Int) : Int) : ZMod p) = (a : ZMod p) :=
  (ZMod.intCast_eq_intCast_iff _ _ _).mpr (Int.emod_emod_of_dvd a dvd_rfl)

theorem int_eq_of_cast_eq {p : Nat} {a b : Int}
    (ha0 : 0 ≤ a) (hap : a < (p : Int)) (hb0 : 0 ≤ b) (hbp : b < (p : Int))
    (h : (a : ZMod p) = (b : ZMod p)) : a = b := by
  have hmod : a % (p : Int) = b % (p : Int) :=
    (ZMod.intCast_eq_intCast_iff _ _ _).mp h
  rwa [Int.emod_eq_of_lt ha0 hap, Int.emod_eq_of_lt hb0 hbp] at hmod

theorem cast_powMod (p : Nat) (b : Int) (e : Nat) :
    ((powMod b e (p : Int) : Int) : ZMod p) = (b : ZMod p) ^ e := by
  rw [powMod_eq, intCast_emod_self, Int.cast_pow]

theorem cast_fermat_inverse (p : Nat) [hF : Fact p.Prime] {d : Int}
    (hd : (d : ZMod p) ≠ 0) :
    ((powMod d (((p : Int) - 2).toNat) (p : Int) : Int) : ZMod p)
      = (d : ZMod p)⁻¹ := by
  have h2 : (2 : Nat) ≤ p := hF.out.two_le
  have he : (((p : Int) - 2).toNat) = p - 2 := by omega
  rw [he, cast_powMod]
  have hm : (d : ZMod p) * (d : ZMod p) ^ (p - 2) = 1 := by
    have hs : p - 2 + 1 = p - 1 := by omega
    rw [← pow_succ', hs, ZMod.pow_card_sub_one_eq_one hd]
  exact (inv_eq_of_mul_eq_one_right hm).symm

/-- Field division succeeds on a denominator that is nonzero mod `p` and
returns a reduced element representing the `ZMod p` quotient. -/
theorem div_ok_cast (p : Nat) [hF : Fact p.Prime] (aF bF : FieldElement)
    (hap : aF.prime = (p : Int)) (hbp : bF.prime = (p : Int))
    (hb : (bF.num : ZMod p) ≠ 0) :
    ∃ q, FieldElement.div aF bF = .ok q ∧ q.prime = (p : Int) ∧
      0 ≤ q.num ∧ q.num < (p : Int) ∧
      (q.num : ZMod p) = (aF.num : ZMod p) / (bF.num : ZMod p) := by
  have hp : (0 : Int) < (p : Int) := by exact_mod_cast hF.out.pos
  have hb0 : bF.num ≠ 0 := by
    intro h0
    exact hb (by rw [h0, Int.cast_zero])
  refine ⟨⟨aF.num * powMod bF.num ((bF.prime - 2).toNat) bF.prime % aF.prime,
    aF.prime⟩, ?_, hap, Int.emod_nonneg _ (by omega), ?_, ?_⟩
  · simp only [FieldElement.div, FieldElement.inverse, if_neg hb0]
    rfl
  · rw [hap]; exact Int.emod_lt_of_pos _ hp
  · show ((aF.num * powMod bF.num ((bF.prime - 2).toNat) bF.prime
        % aF.prime : Int) : ZMod p) = _
    rw [hap, hbp, intCast_emod_self, Int.cast_mul, cast_fermat_inverse p hb,
      div_eq_mul_inv]

/-- The `slope` method on two finite points, unfolded. -/
theorem slope_finite (x1f y1f x2f y2f aF bF aF2 bF2 : FieldElement) :
    EllipticCurve.slope ⟨some x1f, some y1f, aF, bF⟩ ⟨some x2f, some y2f, aF2, bF2⟩
      = (FieldElement.div
          (FieldElement.new ((y2f.num - y1f.num) % aF.prime) aF.prime)
          (FieldElement.new ((x2f.num - x1f.num) % aF.prime) aF.prime)).map some := by
  rfl

/-- The `tangent_slope` method on a finite point, unfolded. -/
theorem tangent_slope_finite (x1f y1f aF bF : FieldElement) :
    EllipticCurve.tangent_slope ⟨some x1f, some y1f, aF, bF⟩
      = (FieldElement.div
          (FieldElement.new ((3 * (x1f.num ^ 2 % aF.prime) % aF.prime + aF.num) % aF.prime) aF.prime)
          (FieldElement.new (2 * y1f.num % aF.prime) aF.prime)).map some := by
  rfl

/-- The `is_valid` check on a finite point is exactly the curve equation
over `ZMod p`. -/
theorem is_valid_iff_equation (p : Nat) (hp : 0 < p)
    (xf yf aF bF : FieldElement)
    (hxp : xf.prime = (p : Int)) (hyp : yf.prime = (p : Int))
    (hap : aF.prime = (p : Int)) :
    (EllipticCurve.is_valid ⟨some xf, some yf, aF, bF⟩ = true)
      ↔ (toW p aF bF).Equation (xf.num : ZMod p) (yf.num : ZMod p) := by
  have hpz : (0 : Int) < (p : Int) := by exact_mod_cast hp
  show (decide (yf.pow 2 = xf.pow 3 + aF * xf + bF) = true) ↔ _
  rw [decide_eq_true_iff]
  have hshape : (xf.pow 3 + aF * xf + bF)
      = ⟨((powMod xf.num 3 xf.prime + aF.num * xf.num % aF.prime) % xf.prime
            + bF.num) % xf.prime, xf.prime⟩ := rfl
  have hshape2 : yf.pow 2 = ⟨powMod yf.num 2 yf.prime, yf.prime⟩ := rfl
  rw [hshape, hshape2, FieldElement.mk.injEq, hxp, hyp, hap]
  constructor
  · rintro ⟨hnum, -⟩
    have hc := congrArg (fun t : Int => (t : ZMod p)) hnum
    simp only at hc
    rw [powMod_eq, powMod_eq] at hc
    simp only [intCast_emod_self, Int.cast_add, Int.cast_mul, Int.cast_pow] at hc
    rw [(toW p aF bF).equation_iff]
    simp only [toW]
    linear_combination hc
  · intro hEq
    refine ⟨?_, rfl⟩
    rw [(toW p aF bF).equation_iff] at hEq
    simp only [toW] at hEq
    rw [powMod_eq, powMod_eq]
    apply int_eq_of_cast_eq (Int.emod_nonneg _ (by omega))
      (Int.emod_lt_of_pos _ hpz) (Int.emod_nonneg _ (by omega))
      (Int.emod_lt_of_pos _ hpz)
    simp only [intCast_emod_self, Int.cast_add, Int.cast_mul, Int.cast_pow]
    linear_combination hEq

/-- The chord case of the group law: on two reduced on-curve points with
distinct abscissas, `add` succeeds and lands on the `ZMod p` chord-addition
coordinates of Mathlib's affine Weierstrass addition. -/
theorem add_chord (p : Nat) [hF : Fact p.Prime]
    (x1f y1f x2f y2f aF bF : FieldElement)
    (hap : aF.prime = (p : Int)) (hbp : bF.prime = (p : Int))
    (h1x : feWF p x1f) (h1y : feWF p y1f) (h2x : feWF p x2f) (h2y : feWF p y2f)
    (hx : x1f.num ≠ x2f.num)
    (hE1 : (toW p aF bF).Equation (x1f.num : ZMod p) (y1f.num : ZMod p))
    (hE2 : (toW p aF bF).Equation (x2f.num : ZMod p) (y2f.num : ZMod p)) :
    ∃ x3f y3f : FieldElement,
      EllipticCurve.add ⟨some x1f, some y1f, aF, bF⟩ ⟨some x2f, some y2f, aF, bF⟩
        = .ok ⟨some x3f, some y3f, aF, bF⟩ ∧
      feWF p x3f ∧ feWF p y3f ∧
      (x3f.num : ZMod p)
        = (toW p aF bF).addX (x1f.num : ZMod p) (x2f.num : ZMod p)
            ((toW p aF bF).slope (x1f.num : ZMod p) (x2f.num : ZMod p)
              (y1f.num : ZMod p) (y2f.num : ZMod p)) ∧
      (y3f.num : ZMod p)
        = (toW p aF bF).addY (x1f.num : ZMod p) (x2f.num : ZMod p)
            (y1f.num : ZMod p)
            ((toW p aF bF).slope (x1f.num : ZMod p) (x2f.num : ZMod p)
              (y1f.num : ZMod p) (y2f.num : ZMod p)) := by
  have hpz : (0 : Int) < (p : Int) := by exact_mod_cast hF.out.pos
  set W := toW p aF bF with hW
  have hxc : (x1f.num : ZMod p) ≠ (x2f.num : ZMod p) := fun h =>
    hx (int_eq_of_cast_eq h1x.2.1 h1x.2.2 h2x.2.1 h2x.2.2 h)
  have hden : ((FieldElement.new ((x2f.num - x1f.num) % aF.prime)
      aF.prime).num : ZMod p) ≠ 0 := by
    show (((x2f.num - x1f.num) % aF.prime % aF.prime : Int) : ZMod p) ≠ 0
    rw [hap, intCast_emod_self, intCast_emod_self, Int.cast_sub]
    exact sub_ne_zero_of_ne fun h => hxc (by linear_combination h.symm)
  obtain ⟨s, hdiv, hsp, hs0, hslt, hscast⟩ :=
    div_ok_cast p (FieldElement.new ((y2f.num - y1f.num) % aF.prime) aF.prime)
      (FieldElement.new ((x2f.num - x1f.num) % aF.prime) aF.prime) hap hap hden
  have hsc : (s.num : ZMod p) = W.slope (x1f.num : ZMod p) (x2f.num : ZMod p)
      (y1f.num : ZMod p) (y2f.num : ZMod p) := by
    rw [hscast, WeierstrassCurve.Affine.slope_of_X_ne hxc]
    show (((y2f.num - y1f.num) % aF.prime % aF.prime : Int) : ZMod p)
        / (((x2f.num - x1f.num) % aF.prime % aF.prime : Int) : ZMod p) = _
    rw [hap, intCast_emod_self, intCast_emod_self, intCast_emod_self,
      intCast_emod_self, Int.cast_sub, Int.cast_sub,
      ← neg_sub (y1f.num : ZMod p), ← neg_sub (x1f.num : ZMod p),
      neg_div_neg_eq]
  set L := W.slope (x1f.num : ZMod p) (x2f.num : ZMod p)
      (y1f.num : ZMod p) (y2f.num : ZMod p) with hL
  set x3v : Int := ((s.pow 2).num - x1f.num - x2f.num) % aF.prime with hx3v
  set y3v : Int := (s.num * (x1f.num - x3v) % aF.prime - y1f.num) % aF.prime
    with hy3v
  have hx3c : ((x3v : Int) : ZMod p) = W.addX (x1f.num : ZMod p)
      (x2f.num : ZMod p) L := by
    rw [hx3v]
    show (((powMod s.num 2 s.prime - x1f.num - x2f.num) % aF.prime : Int)
        : ZMod p) = _
    rw [hap, hsp, intCast_emod_self, Int.cast_sub, Int.cast_sub, cast_powMod,
      hsc]
    simp only [WeierstrassCurve.Affine.addX, hW, toW]
    ring
  have hy3c : ((y3v : Int) : ZMod p) = W.addY (x1f.num : ZMod p)
      (x2f.num : ZMod p) (y1f.num : ZMod p) L := by
    rw [hy3v, hap, intCast_emod_self, Int.cast_sub, intCast_emod_self,
      Int.cast_mul, Int.cast_sub, hx3c, hsc]
    simp only [WeierstrassCurve.Affine.addY, WeierstrassCurve.Affine.negAddY,
      WeierstrassCurve.Affine.negY, hW, toW]
    ring
  have hEq3 : W.Equation ((x3v : Int) : ZMod p) ((y3v : Int) : ZMod p) := by
    rw [hx3c, hy3c]
    exact WeierstrassCurve.Affine.equation_add hE1 hE2 fun h => absurd h hxc
  refine ⟨FieldElement.new x3v aF.prime, FieldElement.new y3v aF.prime,
    ?_, ?_, ?_, ?_, ?_⟩
  · show EllipticCurve.add _ _ = _
    rw [EllipticCurve.add]
    rw [if_neg (not_not_intro ⟨rfl, rfl⟩)]
    rw [if_neg (by simp : ¬(some x2f = none))]
    rw [if_neg (by simp : ¬(some x1f = none))]
    rw [if_pos (show (⟨some x1f, some y1f, aF, bF⟩ : EllipticCurve).x
        ≠ (⟨some x2f, some y2f, aF, bF⟩ : EllipticCurve).x by
      simp only [ne_eq, Option.some.injEq]
      exact fun h => hx (congrArg FieldElement.num h))]
    rw [slope_finite, hdiv]
    show EllipticCurve.new (some (FieldElement.new x3v aF.prime))
        (some (FieldElement.new y3v aF.prime)) aF bF = _
    rw [EllipticCurve.new]
    rw [if_pos ((is_valid_iff_equation p hF.out.pos
        (FieldElement.new x3v aF.prime) (FieldElement.new y3v aF.prime)
        aF bF hap hap hap).mpr (by
      show W.Equation ((x3v % aF.prime : Int) : ZMod p)
        ((y3v % aF.prime : Int) : ZMod p)
      rwa [hap, intCast_emod_self, intCast_emod_self]))]
    exact fun h => Option.noConfusion h
  · refine ⟨hap, ?_, ?_⟩
    · show 0 ≤ x3v % aF.prime
      rw [hap]; exact Int.emod_nonneg _ (by omega)
    · show x3v % aF.prime < (p : Int)
      rw [hap]; exact Int.emod_lt_of_pos _ hpz
  · refine ⟨hap, ?_, ?_⟩
    · show 0 ≤ y3v % aF.prime
      rw [hap]; exact Int.emod_nonneg _ (by omega)
    · show y3v % aF.prime < (p : Int)
      rw [hap]; exact Int.emod_lt_of_pos _ hpz
  · show ((x3v % aF.prime : Int) : ZMod p) = _
    rw [hap, intCast_emod_self]; exact hx3c
  · show ((y3v % aF.prime : Int) : ZMod p) = _
    rw [hap, intCast_emod_self]; exact hy3c

/-- The tangent case of the group law: doubling a reduced on-curve point
with nonzero ordinate over an odd prime field succeeds and lands on the
`ZMod p` doubling coordinates of Mathlib's affine Weierstrass addition. -/
theorem add_tangent (p : Nat) [hF : Fact p.Prime] (hodd : p ≠ 2)
    (x1f y1f aF bF : FieldElement)
    (hap : aF.prime = (p : Int)) (hbp : bF.prime = (p : Int))
    (h1x : feWF p x1f) (h1y : feWF p y1f)
    (hynz : ¬y1f.num = 0)
    (hE1 : (toW p aF bF).Equation (x1f.num : ZMod p) (y1f.num : ZMod p)) :
    ∃ x3f y3f : FieldElement,
      EllipticCurve.add ⟨some x1f, some y1f, aF, bF⟩ ⟨some x1f, some y1f, aF, bF⟩
        = .ok ⟨some x3f, some y3f, aF, bF⟩ ∧
      feWF p x3f ∧ feWF p y3f ∧
      (x3f.num : ZMod p)
        = (toW p aF bF).addX (x1f.num : ZMod p) (x1f.num : ZMod p)
            ((toW p aF bF).slope (x1f.num : ZMod p) (x1f.num : ZMod p)
              (y1f.num : ZMod p) (y1f.num : ZMod p)) ∧
      (y3f.num : ZMod p)
        = (toW p aF bF).addY (x1f.num : ZMod p) (x1f.num : ZMod p)
            (y1f.num : ZMod p)
            ((toW p aF bF).slope (x1f.num : ZMod p) (x1f.num : ZMod p)
              (y1f.num : ZMod p) (y1f.num : ZMod p)) := by
  have hpz : (0 : Int) < (p : Int) := by exact_mod_cast hF.out.pos
  set W := toW p aF bF with hW
  have hyc : (y1f.num : ZMod p) ≠ 0 := fun h =>
    hynz (int_eq_of_cast_eq h1y.2.1 h1y.2.2 le_rfl hpz
      (by rw [h, Int.cast_zero]))
  have h2z : (2 : ZMod p) ≠ 0 := by
    intro h2
    have hdvd : p ∣ 2 := by
      have : ((2 : Nat) : ZMod p) = 0 := by exact_mod_cast h2
      exact (ZMod.natCast_zmod_eq_zero_iff_dvd 2 p).mp this
    exact hodd ((Nat.prime_dvd_prime_iff_eq hF.out Nat.prime_two).mp hdvd)
  have hny : (y1f.num : ZMod p) ≠ W.negY (x1f.num : ZMod p) (y1f.num : ZMod p) := by
    intro h
    simp only [WeierstrassCurve.Affine.negY, hW, toW] at h
    apply mul_ne_zero h2z hyc
    linear_combination h
  have hden : ((FieldElement.new (2 * y1f.num % aF.prime) aF.prime).num
      : ZMod p) ≠ 0 := by
    show ((2 * y1f.num % aF.prime % aF.prime : Int) : ZMod p) ≠ 0
    rw [hap, intCast_emod_self, intCast_emod_self, Int.cast_mul]
    exact mul_ne_zero (by exact_mod_cast h2z) hyc
  obtain ⟨s, hdiv, hsp, hs0, hslt, hscast⟩ :=
    div_ok_cast p
      (FieldElement.new ((3 * (x1f.num ^ 2 % aF.prime) % aF.prime + aF.num)
        % aF.prime) aF.prime)
      (FieldElement.new (2 * y1f.num % aF.prime) aF.prime) hap hap hden
  have hsc : (s.num : ZMod p) = W.slope (x1f.num : ZMod p) (x1f.num : ZMod p)
      (y1f.num : ZMod p) (y1f.num : ZMod p) := by
    rw [hscast, WeierstrassCurve.Affine.slope_of_Y_ne rfl hny]
    show (((3 * (x1f.num ^ 2 % aF.prime) % aF.prime + aF.num) % aF.prime
          % aF.prime : Int) : ZMod p)
        / ((2 * y1f.num % aF.prime % aF.prime : Int) : ZMod p) = _
    rw [hap]
    simp only [intCast_emod_self, Int.cast_add, Int.cast_mul, Int.cast_pow,
      Int.cast_ofNat]
    simp only [WeierstrassCurve.Affine.negY, hW, toW]
    congr 1
    · ring
    · ring
  set L := W.slope (x1f.num : ZMod p) (x1f.num : ZMod p)
      (y1f.num : ZMod p) (y1f.num : ZMod p) with hL
  set x3v : Int := (s.num ^ 2 % aF.prime - 2 * x1f.num % aF.prime) % aF.prime
    with hx3v
  set y3v : Int := (s.num * (x1f.num - x3v) % aF.prime - y1f.num) % aF.prime
    with hy3v
  have hx3c : ((x3v : Int) : ZMod p) = W.addX (x1f.num : ZMod p)
      (x1f.num : ZMod p) L := by
    rw [hx3v, hap]
    simp only [intCast_emod_self, Int.cast_sub, Int.cast_mul, Int.cast_pow,
      Int.cast_ofNat, hsc]
    simp only [WeierstrassCurve.Affine.addX, hW, toW]
    ring
  have hy3c : ((y3v : Int) : ZMod p) = W.addY (x1f.num : ZMod p)
      (x1f.num : ZMod p) (y1f.num : ZMod p) L := by
    rw [hy3v, hap, intCast_emod_self, Int.cast_sub, intCast_emod_self,
      Int.cast_mul, Int.cast_sub, hx3c, hsc]
    simp only [WeierstrassCurve.Affine.addY, WeierstrassCurve.Affine.negAddY,
      WeierstrassCurve.Affine.negY, hW, toW]
    ring
  have hEq3 : W.Equation ((x3v : Int) : ZMod p) ((y3v : Int) : ZMod p) := by
    rw [hx3c, hy3c]
    exact WeierstrassCurve.Affine.equation_add hE1 hE1 fun _ => hny
  refine ⟨FieldElement.new x3v aF.prime, FieldElement.new y3v aF.prime,
    ?_, ?_, ?_, ?_, ?_⟩
  · show EllipticCurve.add _ _ = _
    rw [EllipticCurve.add]
    rw [if_neg (not_not_intro ⟨rfl, rfl⟩)]
    rw [if_neg (by simp : ¬(some x1f = none))]
    rw [if_neg (by simp : ¬(some x1f = none))]
    rw [if_neg (not_not_intro rfl)]
    rw [if_pos rfl]
    show (if y1f.num = 0 then _ else _) = _
    rw [if_neg hynz]
    rw [tangent_slope_finite, hdiv]
    show EllipticCurve.new (some (FieldElement.new x3v aF.prime))
        (some (FieldElement.new y3v aF.prime)) aF bF = _
    rw [EllipticCurve.new]
    rw [if_pos ((is_valid_iff_equation p hF.out.pos
        (FieldElement.new x3v aF.prime) (FieldElement.new y3v aF.prime)
        aF bF hap hap hap).mpr (by
      show W.Equation ((x3v % aF.prime : Int) : ZMod p)
        ((y3v % aF.prime : Int) : ZMod p)
      rwa [hap, intCast_emod_self, intCast_emod_self]))]
    exact fun h => Option.noConfusion h
  · refine ⟨hap, ?_, ?_⟩
    · show 0 ≤ x3v % aF.prime
      rw [hap]; exact Int.emod_nonneg _ (by omega)
    · show x3v % aF.prime < (p : Int)
      rw [hap]; exact Int.emod_lt_of_pos _ hpz
  · refine ⟨hap, ?_, ?_⟩
    · show 0 ≤ y3v % aF.prime
      rw [hap]; exact Int.emod_nonneg _ (by omega)
    · show y3v % aF.prime < (p : Int)
      rw [hap]; exact Int.emod_lt_of_pos _ hpz
  · show ((x3v % aF.prime : Int) : ZMod p) = _
    rw [hap, intCast_emod_self]; exact hx3c
  · show ((y3v % aF.prime : Int) : ZMod p) = _
    rw [hap, intCast_emod_self]; exact hy3c

/-- A `Point.some` value is determined by its coordinates. -/
theorem point_some_congr {F : Type} [Field F] {W : WeierstrassCurve.Affine F}
    {x1 y1 x2 y2 : F} (hx : x1 = x2) (hy : y1 = y2)
    (h1 : W.Nonsingular x1 y1) (h2 : W.Nonsingular x2 y2) :
    (WeierstrassCurve.Affine.Point.some h1)
      = WeierstrassCurve.Affine.Point.some h2 := by
  subst hx
  subst hy
  rfl

/-- Two reduced field elements with equal residues are equal. -/
theorem fe_eq_of_cast_eq {p : Nat} {f g : FieldElement}
    (hf : feWF p f) (hg : feWF p g)
    (h : (f.num : ZMod p) = (g.num : ZMod p)) : f = g := by
  obtain ⟨n1, q1⟩ := f
  obtain ⟨n2, q2⟩ := g
  simp only [FieldElement.mk.injEq]
  exact ⟨int_eq_of_cast_eq hf.2.1 hf.2.2 hg.2.1 hg.2.2 h,
    hf.1.trans hg.1.symm⟩

/-- The addition of the embedded curve code refines Mathlib's group law on
nonsingular points of the corresponding Weierstrass curve over an odd prime
field: it never fails, preserves well-formedness and tracks `+` on
`(toW p aF bF).Point`. -/
theorem add_refines (p : Nat) [hF : Fact p.Prime] (hodd : p ≠ 2)
    (aF bF : FieldElement) (hap : aF.prime = (p : Int))
    (hbp : bF.prime = (p : Int)) (P Q : EllipticCurve)
    (hPa : P.a = aF) (hPb : P.b = bF) (hQa : Q.a = aF) (hQb : Q.b = bF)
    (hPr : Reduced p P) (hQr : Reduced p Q)
    (ptP ptQ : (toW p aF bF).Point)
    (hP : RelPt p aF bF P ptP) (hQ : RelPt p aF bF Q ptQ) :
    ∃ R, P.add Q = .ok R ∧ R.a = aF ∧ R.b = bF ∧ Reduced p R ∧
      RelPt p aF bF R (ptP + ptQ) := by
  have hpz : (0 : Int) < (p : Int) := by exact_mod_cast hF.out.pos
  obtain ⟨Px, Py, Pa, Pb⟩ := P
  obtain ⟨Qx, Qy, Qa, Qb⟩ := Q
  simp only at hPa hPb hQa hQb
  subst Pa Pb Qa Qb
  -- resolve the relation for Q
  rcases hQ with ⟨hQx, hQy, hptQ⟩ | ⟨x2f, y2f, h2, hQx, hQy, hptQ⟩
  · -- Q is the identity: P + 0 = P
    simp only at hQx hQy
    subst hQx hQy hptQ
    refine ⟨⟨Px, Py, aF, bF⟩, ?_, rfl, rfl, hPr, by rw [add_zero]; exact hP⟩
    show EllipticCurve.add _ _ = _
    rw [EllipticCurve.add, if_neg (not_not_intro ⟨rfl, rfl⟩), if_pos rfl]
  · simp only at hQx hQy
    subst hQx hQy hptQ
    rcases hP with ⟨hPx, hPy, hptP⟩ | ⟨x1f, y1f, h1, hPx, hPy, hptP⟩
    · -- P is the identity: 0 + Q = Q
      simp only at hPx hPy
      subst hPx hPy hptP
      refine ⟨⟨some x2f, some y2f, aF, bF⟩, ?_, rfl, rfl, hQr,
        by rw [zero_add]; exact Or.inr ⟨x2f, y2f, h2, rfl, rfl, rfl⟩⟩
      show EllipticCurve.add _ _ = _
      rw [EllipticCurve.add, if_neg (not_not_intro ⟨rfl, rfl⟩),
        if_neg (by simp : ¬(some x2f = none)), if_pos rfl]
    · -- both finite
      simp only at hPx hPy
      subst hPx hPy hptP
      obtain ⟨-, -, h1wf⟩ := hPr
      obtain ⟨-, -, h2wf⟩ := hQr
      obtain ⟨h1x, h1y⟩ := h1wf
      obtain ⟨h2x, h2y⟩ := h2wf
      by_cases hx : x1f.num = x2f.num
      · -- equal abscissas
        have hxf : x1f = x2f := fe_eq_of_cast_eq h1x h2x (by rw [hx])
        subst hxf
        by_cases hy : y1f.num = y2f.num
        · -- equal points
          have hyf : y1f = y2f := fe_eq_of_cast_eq h1y h2y (by rw [hy])
          subst hyf
          by_cases hy0 : y1f.num = 0
          · -- ordinate zero: doubling gives the identity
            have hyc0 : (y1f.num : ZMod p) = 0 := by rw [hy0, Int.cast_zero]
            refine ⟨⟨none, none, aF, bF⟩, ?_, rfl, rfl,
              ⟨hap, hbp, trivial⟩, Or.inl ⟨rfl, rfl, ?_⟩⟩
            · show EllipticCurve.add _ _ = _
              rw [EllipticCurve.add, if_neg (not_not_intro ⟨rfl, rfl⟩),
                if_neg (by simp : ¬(some x1f = none)),
                if_neg (by simp : ¬(some x1f = none)),
                if_neg (not_not_intro rfl), if_pos rfl]
              show (if y1f.num = 0 then _ else _) = _
              rw [if_pos hy0]
              rfl
            · exact WeierstrassCurve.Affine.Point.add_of_Y_eq rfl (by
                simp only [WeierstrassCurve.Affine.negY, toW]
                rw [hyc0]
                ring)
          · -- tangent doubling
            obtain ⟨x3f, y3f, hadd, h3x, h3y, hx3c, hy3c⟩ :=
              add_tangent p hodd x1f y1f aF bF hap hbp h1x h1y hy0 h2.1
            have hny : (y1f.num : ZMod p)
                ≠ (toW p aF bF).negY (x1f.num : ZMod p) (y1f.num : ZMod p) := by
              intro h
              simp only [WeierstrassCurve.Affine.negY, toW] at h
              have hyc : (y1f.num : ZMod p) ≠ 0 := fun hc =>
                hy0 (int_eq_of_cast_eq h1y.2.1 h1y.2.2 le_rfl hpz
                  (by rw [hc, Int.cast_zero]))
              have h2z : (2 : ZMod p) ≠ 0 := by
                intro h2c
                have hdvd : p ∣ 2 := by
                  have hne : ((2 : Nat) : ZMod p) = 0 := by exact_mod_cast h2c
                  exact (ZMod.natCast_zmod_eq_zero_iff_dvd 2 p).mp hne
                exact hodd
                  ((Nat.prime_dvd_prime_iff_eq hF.out Nat.prime_two).mp hdvd)
              exact mul_ne_zero h2z hyc (by linear_combination h)
            refine ⟨⟨some x3f, some y3f, aF, bF⟩, hadd, rfl, rfl,
              ⟨hap, hbp, h3x, h3y⟩, Or.inr ⟨x3f, y3f, ?_, rfl, rfl, ?_⟩⟩
            · rw [hx3c, hy3c]
              exact WeierstrassCurve.Affine.nonsingular_add h1 h2
                fun _ => hny
            · rw [WeierstrassCurve.Affine.Point.add_of_Y_ne hny]
              exact (point_some_congr hx3c hy3c _ _).symm
        · -- same abscissa, different ordinates: vertical chord
          have hyne : y1f ≠ y2f := fun hc => hy (congrArg FieldElement.num hc)
          have hycne : (y1f.num : ZMod p) ≠ (y2f.num : ZMod p) := fun hc =>
            hy (int_eq_of_cast_eq h1y.2.1 h1y.2.2 h2y.2.1 h2y.2.2 hc)
          have hneg : (y1f.num : ZMod p)
              = (toW p aF bF).negY (x1f.num : ZMod p) (y2f.num : ZMod p) := by
            rcases WeierstrassCurve.Affine.Y_eq_of_X_eq h1.1 h2.1 rfl with
              hc | hc
            · exact absurd hc hycne
            · exact hc
          refine ⟨⟨none, none, aF, bF⟩, ?_, rfl, rfl, ⟨hap, hbp, trivial⟩,
            Or.inl ⟨rfl, rfl, ?_⟩⟩
          · show EllipticCurve.add _ _ = _
            rw [EllipticCurve.add, if_neg (not_not_intro ⟨rfl, rfl⟩),
              if_neg (by simp : ¬(some x1f = none)),
              if_neg (by simp : ¬(some x1f = none)),
              if_neg (not_not_intro rfl),
              if_neg (show ¬(⟨some x1f, some y1f, aF, bF⟩ : EllipticCurve)
                  = ⟨some x1f, some y2f, aF, bF⟩ by
                simp only [EllipticCurve.mk.injEq, Option.some.injEq]
                exact fun hc => hyne hc.2.1)]
            rfl
          · exact WeierstrassCurve.Affine.Point.add_of_Y_eq rfl hneg
      · -- distinct abscissas: chord addition
        obtain ⟨x3f, y3f, hadd, h3x, h3y, hx3c, hy3c⟩ :=
          add_chord p x1f y1f x2f y2f aF bF hap hbp h1x h1y h2x h2y hx
            h1.1 h2.1
        have hxc : (x1f.num : ZMod p) ≠ (x2f.num : ZMod p) := fun hc =>
          hx (int_eq_of_cast_eq h1x.2.1 h1x.2.2 h2x.2.1 h2x.2.2 hc)
        refine ⟨⟨some x3f, some y3f, aF, bF⟩, hadd, rfl, rfl,
          ⟨hap, hbp, h3x, h3y⟩, Or.inr ⟨x3f, y3f, ?_, rfl, rfl, ?_⟩⟩
        · rw [hx3c, hy3c]
          exact WeierstrassCurve.Affine.nonsingular_add h1 h2
            fun hc => absurd hc hxc
        · rw [WeierstrassCurve.Affine.Point.add_of_imp
            (fun hc => absurd hc hxc)]
          exact (point_some_congr hx3c hy3c _ _).symm

/-- The double-and-add loop refines scalar multiplication on the Weierstrass
points: with enough fuel it returns `accumulator + n • current`. -/
theorem scalarMulGo_refines (p : Nat) [hF : Fact p.Prime] (hodd : p ≠ 2)
    (aF bF : FieldElement) (hap : aF.prime = (p : Int))
    (hbp : bF.prime = (p : Int)) :
    ∀ (fuel : Nat) (n : Nat) (C R0 : EllipticCurve)
      (ptC ptR : (toW p aF bF).Point),
      n < 2 ^ fuel →
      C.a = aF → C.b = bF → Reduced p C → RelPt p aF bF C ptC →
      R0.a = aF → R0.b = bF → Reduced p R0 → RelPt p aF bF R0 ptR →
      ∃ R, EllipticCurve.scalarMulGo fuel (n : Int) C R0 = .ok R ∧
        R.a = aF ∧ R.b = bF ∧ Reduced p R ∧
        RelPt p aF bF R (ptR + n • ptC) := by
  intro fuel
  induction fuel with
  | zero =>
    intro n C R0 ptC ptR hn hCa hCb hCr hCrel hRa hRb hRr hRrel
    have hn0 : n = 0 := by omega
    subst hn0
    exact ⟨R0, rfl, hRa, hRb, hRr, by rwa [zero_nsmul, add_zero]⟩
  | succ fuel ih =>
    intro n C R0 ptC ptR hn hCa hCb hCr hCrel hRa hRb hRr hRrel
    by_cases hn0 : n = 0
    · subst hn0
      refine ⟨R0, ?_, hRa, hRb, hRr, by rwa [zero_nsmul, add_zero]⟩
      exact scalarMulGo_nonpos _ _ _ _ (by omega)
    · have hpos : (0 : Int) < (n : Int) := by omega
      obtain ⟨R1, hR1eq, hR1a, hR1b, hR1r, hR1rel⟩ :
          ∃ R1, (if ((n : Int)) % 2 = 1 then R0.add C else .ok R0) = .ok R1 ∧
            R1.a = aF ∧ R1.b = bF ∧ Reduced p R1 ∧
            RelPt p aF bF R1 (ptR + (n % 2) • ptC) := by
        by_cases hbit : (n : Int) % 2 = 1
        · have hb : n % 2 = 1 := by omega
          obtain ⟨R1, h1, h2, h3, h4, h5⟩ := add_refines p hodd aF bF hap hbp
            R0 C hRa hRb hCa hCb hRr hCr ptR ptC hRrel hCrel
          exact ⟨R1, by rw [if_pos hbit]; exact h1, h2, h3, h4,
            by rwa [hb, one_nsmul]⟩
        · have hb : n % 2 = 0 := by omega
          exact ⟨R0, by rw [if_neg hbit], hRa, hRb, hRr,
            by rwa [hb, zero_nsmul, add_zero]⟩
      obtain ⟨C2, hC2eq, hC2a, hC2b, hC2r, hC2rel⟩ := add_refines p hodd aF bF
        hap hbp C C hCa hCb hCa hCb hCr hCr ptC ptC hCrel hCrel
      obtain ⟨R, hReq, hRa', hRb', hRr', hRrel'⟩ := ih (n / 2) C2 R1
        (ptC + ptC) (ptR + (n % 2) • ptC) (by omega) hC2a hC2b hC2r hC2rel
        hR1a hR1b hR1r hR1rel
      refine ⟨R, ?_, hRa', hRb', hRr', ?_⟩
      · show EllipticCurve.scalarMulGo (fuel + 1) (n : Int) C R0 = .ok R
        rw [EllipticCurve.scalarMulGo, if_pos hpos, hR1eq]
        simp only [hC2eq]
        have hdiv2 : ((n : Int)) / 2 = ((n / 2 : Nat) : Int) := by omega
        rw [hdiv2]
        exact hReq
      · have h2 : (n / 2) • (ptC + ptC) = (2 * (n / 2)) • ptC := by
          rw [← two_nsmul, ← mul_nsmul]
        have hsplit : ptR + (n % 2) • ptC + (n / 2) • (ptC + ptC)
            = ptR + n • ptC := by
          rw [h2, add_assoc, ← add_nsmul]
          have hn2 : n % 2 + 2 * (n / 2) = n := by omega
          rw [hn2]
        rwa [hsplit] at hRrel'

/-- The spec's `k`-fold repeated addition refines scalar multiplication on
the Weierstrass points. -/
theorem repeated_add_refines (p : Nat) [hF : Fact p.Prime] (hodd : p ≠ 2)
    (aF bF : FieldElement) (hap : aF.prime = (p : Int))
    (hbp : bF.prime = (p : Int)) (P : EllipticCurve)
    (hPa : P.a = aF) (hPb : P.b = bF) (hPr : Reduced p P)
    (ptP : (toW p aF bF).Point) (hPrel : RelPt p aF bF P ptP) :
    ∀ n : Nat, ∃ R, repeated_add P n = .ok R ∧
      R.a = aF ∧ R.b = bF ∧ Reduced p R ∧ RelPt p aF bF R (n • ptP) := by
  intro n
  induction n with
  | zero =>
    refine ⟨P.identity, rfl, hPa, hPb, ⟨?_, ?_, trivial⟩,
      Or.inl ⟨rfl, rfl, by rw [zero_nsmul]⟩⟩
    · show P.a.prime = (p : Int); rw [hPa, hap]
    · show P.b.prime = (p : Int); rw [hPb, hbp]
  | succ n ihn =>
    obtain ⟨Rn, hRn, hRna, hRnb, hRnr, hRnrel⟩ := ihn
    obtain ⟨R, hR, hRa, hRb, hRr, hRrel⟩ := add_refines p hodd aF bF hap hbp
      Rn P hRna hRnb hPa hPb hRnr hPr _ _ hRnrel hPrel
    refine ⟨R, ?_, hRa, hRb, hRr, ?_⟩
    · show (repeated_add P n).bind (fun prev => prev.add P) = .ok R
      rw [hRn]
      exact hR
    · rwa [succ_nsmul]

/-- The abstraction relation is injective on reduced points of a fixed
curve. -/
theorem relPt_inj (p : Nat) (aF bF : FieldElement)
    (R1 R2 : EllipticCurve) (pt : (toW p aF bF).Point)
    (h1 : RelPt p aF bF R1 pt) (h2 : RelPt p aF bF R2 pt)
    (hr1 : Reduced p R1) (hr2 : Reduced p R2)
    (h1a : R1.a = aF) (h1b : R1.b = bF) (h2a : R2.a = aF) (h2b : R2.b = bF) :
    R1 = R2 := by
  obtain ⟨x1, y1, a1, b1⟩ := R1
  obtain ⟨x2, y2, a2, b2⟩ := R2
  simp only at h1a h1b h2a h2b
  subst a1 b1 a2 b2
  rcases h1 with ⟨hx1, hy1, hpt1⟩ | ⟨x1f, y1f, hn1, hx1, hy1, hpt1⟩ <;>
    rcases h2 with ⟨hx2, hy2, hpt2⟩ | ⟨x2f, y2f, hn2, hx2, hy2, hpt2⟩ <;>
    simp only at hx1 hy1 hx2 hy2 <;>
    subst hx1 <;> subst hy1 <;> subst hx2 <;> subst hy2
  · rfl
  · exact absurd (hpt2.symm.trans hpt1)
      (WeierstrassCurve.Affine.Point.some_ne_zero hn2)
  · exact absurd (hpt1.symm.trans hpt2)
      (WeierstrassCurve.Affine.Point.some_ne_zero hn1)
  · have hkey := hpt1.symm.trans hpt2
    obtain ⟨-, -, h1x, h1y⟩ := hr1
    obtain ⟨-, -, h2x, h2y⟩ := hr2
    injection hkey with hxc hyc
    have hxf : x1f = x2f := fe_eq_of_cast_eq h1x h2x hxc
    have hyf : y1f = y2f := fe_eq_of_cast_eq h1y h2y hyc
    rw [hxf, hyf]

/-- Adding a point to the identity on its own curve returns the point. -/
theorem identity_add (p : Nat) (P : EllipticCurve) (hPr : Reduced p P) :
    P.identity.add P = .ok P := by
  obtain ⟨Px, Py, Pa, Pb⟩ := P
  match hx : Px, hy : Py with
  | none, none =>
    simp [EllipticCurve.add, EllipticCurve.identity]
  | none, some yf =>
    exact False.elim (hPr.2.2 : False)
  | some xf, none =>
    exact False.elim (hPr.2.2 : False)
  | some xf, some yf =>
    simp [EllipticCurve.add, EllipticCurve.identity]

/-- C6: over an odd prime field, for every non-negative integer `k` and
every reduced nonsingular point `P`, the double-and-add `scalar_mul(k, P)`
equals the `k`-fold repeated group addition of `P` with itself; in
particular `scalar_mul(0, P)` is the identity and `scalar_mul(1, P)` is
`P`. -/
theorem scalar_mul_eq_repeated_add (p : Nat) [hF : Fact p.Prime]
    (hodd : p ≠ 2) (P : EllipticCurve)
    (hPr : Reduced p P) (hPn : NonsingularPt p P) :
    (∀ k : Int, 0 ≤ k → P.scalar_mul k = repeated_add P k.toNat) ∧
      P.scalar_mul 0 = .ok P.identity ∧
      P.scalar_mul 1 = .ok P := by
  have hap : P.a.prime = (p : Int) := hPr.1
  have hbp : P.b.prime = (p : Int) := hPr.2.1
  obtain ⟨ptP, hPrel⟩ : ∃ pt, RelPt p P.a P.b P pt := by
    rcases hPx : P.x with _ | xf <;> rcases hPy : P.y with _ | yf
    · exact ⟨0, Or.inl ⟨hPx, hPy, rfl⟩⟩
    · have := hPr.2.2
      rw [hPx, hPy] at this
      exact this.elim
    · have := hPr.2.2
      rw [hPx, hPy] at this
      exact this.elim
    · have hN := hPn
      unfold NonsingularPt at hN
      rw [hPx, hPy] at hN
      exact ⟨.some hN, Or.inr ⟨xf, yf, hN, hPx, hPy, rfl⟩⟩
  have hIr : Reduced p P.identity := ⟨hap, hbp, trivial⟩
  have hIrel : RelPt p P.a P.b P.identity 0 := Or.inl ⟨rfl, rfl, rfl⟩
  have hgen : ∀ k : Int, 0 ≤ k → P.scalar_mul k = repeated_add P k.toNat := by
    intro k hk
    obtain ⟨R, hR, hRa, hRb, hRr, hRrel⟩ := scalarMulGo_refines p hodd P.a P.b
      hap hbp (k.toNat + 1) k.toNat P P.identity ptP 0
      (Nat.lt_of_lt_of_le (Nat.lt_two_pow _)
        (Nat.pow_le_pow_right (by norm_num) (Nat.le_succ _)))
      rfl rfl hPr hPrel rfl rfl hIr hIrel
    obtain ⟨R', hR', hR'a, hR'b, hR'r, hR'rel⟩ := repeated_add_refines p hodd
      P.a P.b hap hbp P rfl rfl hPr ptP hPrel k.toNat
    have hRR : R = R' := relPt_inj p P.a P.b R R' (k.toNat • ptP)
      (by rwa [zero_add] at hRrel) hR'rel hRr hR'r hRa hRb hR'a hR'b
    show EllipticCurve.scalarMulGo (k.toNat + 1) k P P.identity = _
    have hknat : k = ((k.toNat : Nat) : Int) := (Int.toNat_of_nonneg hk).symm
    calc EllipticCurve.scalarMulGo (k.toNat + 1) k P P.identity
        = EllipticCurve.scalarMulGo (k.toNat + 1) ((k.toNat : Nat) : Int)
            P P.identity := by rw [← hknat]
      _ = .ok R := hR
      _ = .ok R' := by rw [hRR]
      _ = repeated_add P k.toNat := hR'.symm
  refine ⟨hgen, ?_, ?_⟩
  · show EllipticCurve.scalarMulGo ((0 : Int).toNat + 1) 0 P P.identity
      = .ok P.identity
    exact scalarMulGo_nonpos _ _ _ _ (by omega)
  · have h1 := hgen 1 (by omega)
    rw [h1]
    show (repeated_add P 0).bind (fun prev => prev.add P) = .ok P
    rw [show repeated_add P 0 = .ok P.identity from rfl]
    show P.identity.add P = .ok P
    exact identity_add p P hPr

/-- Witness for C6 on the test curve `p = 223` at `P = (192, 105)`. -/
theorem scalar_mul_eq_repeated_add_witness :
    (223 : Nat) ≠ 2 ∧
      Reduced 223 ⟨some (fe223 192), some (fe223 105), fe223 0, fe223 7⟩ ∧
      NonsingularPt 223
        ⟨some (fe223 192), some (fe223 105), fe223 0, fe223 7⟩ ∧
      ((∀ k : Int, 0 ≤ k →
          EllipticCurve.scalar_mul
            ⟨some (fe223 192), some (fe223 105), fe223 0, fe223 7⟩ k
            = repeated_add
              ⟨some (fe223 192), some (fe223 105), fe223 0, fe223 7⟩
              k.toNat) ∧
        EllipticCurve.scalar_mul
          ⟨some (fe223 192), some (fe223 105), fe223 0, fe223 7⟩ 0
          = .ok (EllipticCurve.identity
              ⟨some (fe223 192), some (fe223 105), fe223 0, fe223 7⟩) ∧
        EllipticCurve.scalar_mul
          ⟨some (fe223 192), some (fe223 105), fe223 0, fe223 7⟩ 1
          = .ok ⟨some (fe223 192), some (fe223 105), fe223 0, fe223 7⟩) := by
  have hred : Reduced 223
      ⟨some (fe223 192), some (fe223 105), fe223 0, fe223 7⟩ :=
    ⟨by decide, by decide, by decide, by decide⟩
  have hns : NonsingularPt 223
      ⟨some (fe223 192), some (fe223 105), fe223 0, fe223 7⟩ := by
    show (toW 223 (fe223 0) (fe223 7)).Nonsingular
      ((fe223 192).num : ZMod 223) ((fe223 105).num : ZMod 223)
    rw [WeierstrassCurve.Affine.nonsingular_iff,
      WeierstrassCurve.Affine.equation_iff]
    simp only [toW]
    refine ⟨?_, Or.inr ?_⟩
    · decide
    · decide
  haveI hfact : Fact (Nat.Prime 223) := ⟨by norm_num⟩
  exact ⟨by decide, hred, hns,
    scalar_mul_eq_repeated_add 223 (by decide) _ hred hns⟩

/-- Two finite points with the same abscissa and distinct ordinate fields
add to the identity (the vertical-line case of the dispatch). -/
theorem add_vertical (x1f y1f y2f aF bF : FieldElement) (hy : y1f ≠ y2f) :
    EllipticCurve.add ⟨some x1f, some y1f, aF, bF⟩
      ⟨some x1f, some y2f, aF, bF⟩ = .ok ⟨none, none, aF, bF⟩ := by
  show EllipticCurve.add _ _ = _
  rw [EllipticCurve.add, if_neg (not_not_intro ⟨rfl, rfl⟩),
    if_neg (by simp : ¬(some x1f = none)),
    if_neg (by simp : ¬(some x1f = none)),
    if_neg (not_not_intro rfl),
    if_neg (show ¬(⟨some x1f, some y1f, aF, bF⟩ : EllipticCurve)
        = ⟨some x1f, some y2f, aF, bF⟩ by
      simp only [EllipticCurve.mk.injEq, Option.some.injEq]
      exact fun hc => hy hc.2.1)]
  rfl

/-- A finite point with ordinate `0` doubles to the identity. -/
theorem add_self_y_zero (x1f y1f aF bF : FieldElement) (hy0 : y1f.num = 0) :
    EllipticCurve.add ⟨some x1f, some y1f, aF, bF⟩
      ⟨some x1f, some y1f, aF, bF⟩ = .ok ⟨none, none, aF, bF⟩ := by
  show EllipticCurve.add _ _ = _
  rw [EllipticCurve.add, if_neg (not_not_intro ⟨rfl, rfl⟩),
    if_neg (by simp : ¬(some x1f = none)),
    if_neg (by simp : ¬(some x1f = none)),
    if_neg (not_not_intro rfl), if_pos rfl]
  show (if y1f.num = 0 then _ else _) = _
  rw [if_pos hy0]
  rfl

/-- C7: over an odd modulus, adding a reduced finite point `(x, y)` to its
negation `(x, p − y)` yields the identity, including the order-2 case
`y = 0` where the negation coincides with the point itself. -/
theorem add_neg_is_identity (p : Nat) (hodd : Odd p)
    (xf yf aF bF : FieldElement) (hy : feWF p yf) :
    EllipticCurve.add ⟨some xf, some yf, aF, bF⟩
      ⟨some xf, some (FieldElement.new ((p : Int) - yf.num) (p : Int)),
        aF, bF⟩
      = .ok ⟨none, none, aF, bF⟩ := by
  obtain ⟨m, hm⟩ := hodd
  have hpz : (0 : Int) < (p : Int) := by omega
  by_cases hy0 : yf.num = 0
  · have heq : FieldElement.new ((p : Int) - yf.num) (p : Int) = yf := by
      obtain ⟨ynum, yprime⟩ := yf
      simp only at hy0
      subst hy0
      simp only [FieldElement.new, FieldElement.mk.injEq, sub_zero,
        Int.emod_self]
      exact ⟨trivial, hy.1.symm⟩
    rw [heq]
    exact add_self_y_zero xf yf aF bF hy0
  · apply add_vertical
    intro hc
    have hnum := congrArg FieldElement.num hc
    simp only [FieldElement.new] at hnum
    have hyb1 : 0 ≤ yf.num := hy.2.1
    have hyb2 : yf.num < (p : Int) := hy.2.2
    have hmod : ((p : Int) - yf.num) % (p : Int) = (p : Int) - yf.num :=
      Int.emod_eq_of_lt (by omega) (by omega)
    rw [hmod] at hnum
    omega

/-- Witness for C7 at `p = 223`, `P = (47, 71)`. -/
theorem add_neg_is_identity_witness :
    Odd 223 ∧ feWF 223 (fe223 71) ∧
      EllipticCurve.add ⟨some (fe223 47), some (fe223 71), fe223 0, fe223 7⟩
        ⟨some (fe223 47),
          some (FieldElement.new (((223 : Nat) : Int) - (fe223 71).num)
            ((223 : Nat) : Int)), fe223 0, fe223 7⟩
        = .ok ⟨none, none, fe223 0, fe223 7⟩ :=
  ⟨⟨111, by norm_num⟩, by decide,
    add_neg_is_identity 223 ⟨111, by norm_num⟩ (fe223 47) (fe223 71)
      (fe223 0) (fe223 7) (by decide)⟩

/-- Coordinate shapes of a reduced point. -/
theorem reduced_coords {p : Nat} {Px Py : Option FieldElement}
    {aF bF : FieldElement} (h : Reduced p ⟨Px, Py, aF, bF⟩) :
    (Px = none ∧ Py = none) ∨
      ∃ xf yf, Px = some xf ∧ Py = some yf ∧ feWF p xf ∧ feWF p yf := by
  match hx : Px, hy : Py with
  | none, none => exact Or.inl ⟨rfl, rfl⟩
  | none, some yf => exact ((h.2.2 : False)).elim
  | some xf, none => exact ((h.2.2 : False)).elim
  | some xf, some yf =>
    exact Or.inr ⟨xf, yf, rfl, rfl, (h.2.2 : _ ∧ _).1, (h.2.2 : _ ∧ _).2⟩

/-- Two reduced field elements with equal values are equal. -/
theorem fe_eq_of_num_eq {p : Nat} {f g : FieldElement}
    (hf : feWF p f) (hg : feWF p g) (h : f.num = g.num) : f = g := by
  obtain ⟨n1, q1⟩ := f
  obtain ⟨n2, q2⟩ := g
  simp only at h
  simp only [FieldElement.mk.injEq]
  exact ⟨h, hf.1.trans hg.1.symm⟩

/-- The difference of two distinct reduced residues is nonzero mod `p`. -/
theorem diff_emod_ne_zero {p : Int} {a b : Int}
    (ha0 : 0 ≤ a) (hap : a < p) (hb0 : 0 ≤ b) (hbp : b < p) (hne : b ≠ a) :
    (b - a) % p % p ≠ 0 := by
  rw [Int.emod_emod_of_dvd _ dvd_rfl]
  by_cases hba : 0 ≤ b - a
  · rw [Int.emod_eq_of_lt hba (by omega)]
    omega
  · have hre : (b - a) % p = (b - a + p) % p := Int.add_emod_self.symm
    rw [hre, Int.emod_eq_of_lt (by omega) (by omega)]
    omega

/-- Adding the identity on the right returns the point. -/
theorem add_identity_right (P : EllipticCurve) :
    P.add P.identity = .ok P := by
  show EllipticCurve.add _ _ = _
  rw [EllipticCurve.add, if_neg (not_not_intro ⟨rfl, rfl⟩),
    if_pos (show P.identity.x = none from rfl)]

/-- The chord branch of `add`, expressed as the raw `new` call the code
performs, given the value of the slope division. -/
theorem add_chord_raw (x1f y1f x2f y2f aF bF s : FieldElement)
    (hxne : x1f ≠ x2f)
    (hdiv : FieldElement.div
        (FieldElement.new ((y2f.num - y1f.num) % aF.prime) aF.prime)
        (FieldElement.new ((x2f.num - x1f.num) % aF.prime) aF.prime)
      = .ok s) :
    EllipticCurve.add ⟨some x1f, some y1f, aF, bF⟩
        ⟨some x2f, some y2f, aF, bF⟩
      = EllipticCurve.new
          (some (FieldElement.new
            (((s.pow 2).num - x1f.num - x2f.num) % aF.prime) aF.prime))
          (some (FieldElement.new
            ((s.num * (x1f.num
                - ((s.pow 2).num - x1f.num - x2f.num) % aF.prime)
              % aF.prime - y1f.num) % aF.prime) aF.prime))
          aF bF := by
  show EllipticCurve.add _ _ = _
  rw [EllipticCurve.add, if_neg (not_not_intro ⟨rfl, rfl⟩),
    if_neg (by simp : ¬(some x2f = none)),
    if_neg (by simp : ¬(some x1f = none)),
    if_pos (show (⟨some x1f, some y1f, aF, bF⟩ : EllipticCurve).x
        ≠ (⟨some x2f, some y2f, aF, bF⟩ : EllipticCurve).x by
      simp only [ne_eq, Option.some.injEq]
      exact hxne),
    slope_finite, hdiv]
  rfl

/-- C8: point addition commutes for reduced points on a common curve over a
prime field. -/
theorem add_commutative (p : Nat) [hF : Fact p.Prime]
    (P Q : EllipticCurve) (hPr : Reduced p P) (hQr : Reduced p Q)
    (ha : P.a = Q.a) (hb : P.b = Q.b) :
    P.add Q = Q.add P := by
  have hpz : (0 : Int) < (p : Int) := by exact_mod_cast hF.out.pos
  obtain ⟨Px, Py, Pa, Pb⟩ := P
  obtain ⟨Qx, Qy, Qa, Qb⟩ := Q
  simp only at ha hb
  subst Qa Qb
  have hap : Pa.prime = (p : Int) := hPr.1
  rcases reduced_coords hPr with ⟨hPx, hPy⟩ | ⟨x1f, y1f, hPx, hPy, h1x, h1y⟩ <;>
    rcases reduced_coords hQr with ⟨hQx, hQy⟩ |
      ⟨x2f, y2f, hQx, hQy, h2x, h2y⟩ <;>
    subst hPx <;> subst hPy <;> subst hQx <;> subst hQy
  · rfl
  · rw [show (⟨none, none, Pa, Pb⟩ : EllipticCurve)
        = (⟨some x2f, some y2f, Pa, Pb⟩ : EllipticCurve).identity from rfl,
      identity_add p _ hQr, add_identity_right]
  · rw [show (⟨none, none, Pa, Pb⟩ : EllipticCurve)
        = (⟨some x1f, some y1f, Pa, Pb⟩ : EllipticCurve).identity from rfl,
      identity_add p _ hPr, add_identity_right]
  · by_cases hxeq : x1f = x2f
    · subst hxeq
      by_cases hyeq : y1f = y2f
      · subst hyeq
        rfl
      · rw [add_vertical _ _ _ _ _ hyeq, add_vertical _ _ _ _ _ (Ne.symm hyeq)]
    · have hxnum : x1f.num ≠ x2f.num :=
        fun h => hxeq (fe_eq_of_num_eq h1x h2x h)
      have hd21 : ((FieldElement.new ((x2f.num - x1f.num) % Pa.prime)
          Pa.prime).num : ZMod p) ≠ 0 := by
        show (((x2f.num - x1f.num) % Pa.prime % Pa.prime : Int) : ZMod p) ≠ 0
        rw [hap, intCast_emod_self, intCast_emod_self, Int.cast_sub]
        exact sub_ne_zero_of_ne fun h => hxnum
          (int_eq_of_cast_eq h1x.2.1 h1x.2.2 h2x.2.1 h2x.2.2 h.symm)
      have hd12 : ((FieldElement.new ((x1f.num - x2f.num) % Pa.prime)
          Pa.prime).num : ZMod p) ≠ 0 := by
        show (((x1f.num - x2f.num) % Pa.prime % Pa.prime : Int) : ZMod p) ≠ 0
        rw [hap, intCast_emod_self, intCast_emod_self, Int.cast_sub]
        exact sub_ne_zero_of_ne fun h => hxnum
          (int_eq_of_cast_eq h1x.2.1 h1x.2.2 h2x.2.1 h2x.2.2 h)
      obtain ⟨s1, hdiv1, hs1p, hs10, hs1lt, hs1c⟩ :=
        div_ok_cast p
          (FieldElement.new ((y2f.num - y1f.num) % Pa.prime) Pa.prime)
          (FieldElement.new ((x2f.num - x1f.num) % Pa.prime) Pa.prime)
          hap hap hd21
      obtain ⟨s2, hdiv2, hs2p, hs20, hs2lt, hs2c⟩ :=
        div_ok_cast p
          (FieldElement.new ((y1f.num - y2f.num) % Pa.prime) Pa.prime)
          (FieldElement.new ((x1f.num - x2f.num) % Pa.prime) Pa.prime)
          hap hap hd12
      have hdc : ((x2f.num : ZMod p) - (x1f.num : ZMod p)) ≠ 0 := by
        have := hd21
        rw [show (FieldElement.new ((x2f.num - x1f.num) % Pa.prime)
            Pa.prime).num = (x2f.num - x1f.num) % Pa.prime % Pa.prime
          from rfl, hap, intCast_emod_self, intCast_emod_self,
          Int.cast_sub] at this
        exact this
      have hs1cast : (s1.num : ZMod p)
          = ((y2f.num : ZMod p) - (y1f.num : ZMod p))
            / ((x2f.num : ZMod p) - (x1f.num : ZMod p)) := by
        rw [hs1c]
        show (((y2f.num - y1f.num) % Pa.prime % Pa.prime : Int) : ZMod p)
            / (((x2f.num - x1f.num) % Pa.prime % Pa.prime : Int) : ZMod p) = _
        rw [hap, intCast_emod_self, intCast_emod_self, intCast_emod_self,
          intCast_emod_self, Int.cast_sub, Int.cast_sub]
      have hs2cast : (s2.num : ZMod p)
          = ((y2f.num : ZMod p) - (y1f.num : ZMod p))
            / ((x2f.num : ZMod p) - (x1f.num : ZMod p)) := by
        rw [hs2c]
        show (((y1f.num - y2f.num) % Pa.prime % Pa.prime : Int) : ZMod p)
            / (((x1f.num - x2f.num) % Pa.prime % Pa.prime : Int) : ZMod p) = _
        rw [hap, intCast_emod_self, intCast_emod_self, intCast_emod_self,
          intCast_emod_self, Int.cast_sub, Int.cast_sub,
          ← neg_sub (y2f.num : ZMod p), ← neg_sub (x2f.num : ZMod p),
          neg_div_neg_eq]
      have hs12 : s1 = s2 :=
        fe_eq_of_cast_eq ⟨hs1p, hs10, hs1lt⟩ ⟨hs2p, hs20, hs2lt⟩
          (hs1cast.trans hs2cast.symm)
      subst hs12
      rw [add_chord_raw x1f y1f x2f y2f Pa Pb s1 hxeq hdiv1,
        add_chord_raw x2f y2f x1f y1f Pa Pb s1 (Ne.symm hxeq) hdiv2]
      have hx3 : ((s1.pow 2).num - x2f.num - x1f.num) % Pa.prime
          = ((s1.pow 2).num - x1f.num - x2f.num) % Pa.prime := by
        congr 1
        ring
      rw [hx3]
      have hy3 : (s1.num * (x2f.num
            - ((s1.pow 2).num - x1f.num - x2f.num) % Pa.prime)
          % Pa.prime - y2f.num) % Pa.prime
          = (s1.num * (x1f.num
            - ((s1.pow 2).num - x1f.num - x2f.num) % Pa.prime)
          % Pa.prime - y1f.num) % Pa.prime := by
        rw [hap]
        apply int_eq_of_cast_eq (Int.emod_nonneg _ (by omega))
          (Int.emod_lt_of_pos _ hpz) (Int.emod_nonneg _ (by omega))
          (Int.emod_lt_of_pos _ hpz)
        simp only [intCast_emod_self, Int.cast_sub, Int.cast_mul]
        have hkey : (s1.num : ZMod p)
            * ((x2f.num : ZMod p) - (x1f.num : ZMod p))
            = (y2f.num : ZMod p) - (y1f.num : ZMod p) := by
          rw [hs1cast, div_eq_mul_inv, mul_assoc, inv_mul_cancel₀ hdc,
            mul_one]
        linear_combination hkey
      rw [hy3]

/-- The constructor can only fail with `PointNotOnCurve`. -/
theorem new_error_on_curve (x y : Option FieldElement) (a b : FieldElement)
    (e : ECError) (h : EllipticCurve.new x y a b = .error e) :
    e = .PointNotOnCurve := by
  match x, y with
  | none, none => exact absurd h (by simp [EllipticCurve.new])
  | none, some yf =>
    rw [EllipticCurve.new] at h
    · split at h
      · exact absurd h (by simp)
      · exact (Except.error.injEq _ _ ▸ h).symm
    · exact fun _ hc => Option.noConfusion hc
  | some xf, none =>
    rw [EllipticCurve.new] at h
    · split at h
      · exact absurd h (by simp)
      · exact (Except.error.injEq _ _ ▸ h).symm
    · exact fun hc _ => Option.noConfusion hc
  | some xf, some yf =>
    rw [EllipticCurve.new] at h
    · split at h
      · exact absurd h (by simp)
      · exact (Except.error.injEq _ _ ▸ h).symm
    · exact fun hc _ => Option.noConfusion hc

/-- Field division succeeds whenever the denominator value is nonzero. -/
theorem div_ok_of_ne_zero (a b : FieldElement) (hb : b.num ≠ 0) :
    ∃ q, FieldElement.div a b = .ok q := by
  refine ⟨a * ⟨powMod b.num ((b.prime - 2).toNat) b.prime, b.prime⟩, ?_⟩
  simp only [FieldElement.div, FieldElement.inverse, if_neg hb]
  rfl

/-- Twice a reduced nonzero residue is nonzero modulo an odd modulus. -/
theorem two_mul_emod_ne_zero {p : Int} (hop : p % 2 = 1) {y : Int}
    (h0 : 0 < y) (hy : y < p) : 2 * y % p % p ≠ 0 := by
  rw [Int.emod_emod_of_dvd _ dvd_rfl]
  by_cases h : 2 * y < p
  · rw [Int.emod_eq_of_lt (by omega) h]
    omega
  · have hre : (2 * y) % p = (2 * y - p) % p := by
      conv_lhs => rw [show 2 * y = 2 * y - p + p by ring]
      exact Int.add_emod_self
    rw [hre, Int.emod_eq_of_lt (by omega) (by omega)]
    omega

/-- C9: on reduced points over an odd modulus, `add` never raises
`DivisionByZero`: every field division in the slope and tangent-slope
computations has a nonzero denominator under the prior case dispatch. -/
theorem add_never_division_by_zero (p : Nat) (hodd : Odd p)
    (P Q : EllipticCurve) (hPr : Reduced p P) (hQr : Reduced p Q) :
    P.add Q ≠ .error .DivisionByZero := by
  obtain ⟨m, hm⟩ := hodd
  have hpz : (0 : Int) < (p : Int) := by omega
  have hop : ((p : Int)) % 2 = 1 := by omega
  obtain ⟨Px, Py, Pa, Pb⟩ := P
  obtain ⟨Qx, Qy, Qa, Qb⟩ := Q
  have hap : Pa.prime = (p : Int) := hPr.1
  by_cases hab : Pa = Qa ∧ Pb = Qb
  · obtain ⟨ha, hb⟩ := hab
    subst ha hb
    rcases reduced_coords hQr with ⟨hQx, hQy⟩ |
        ⟨x2f, y2f, hQx, hQy, h2x, h2y⟩ <;>
      subst hQx <;> subst hQy
    · rw [show (⟨none, none, Pa, Pb⟩ : EllipticCurve)
          = (⟨Px, Py, Pa, Pb⟩ : EllipticCurve).identity from rfl,
        add_identity_right]
      simp
    · rcases reduced_coords hPr with ⟨hPx, hPy⟩ |
          ⟨x1f, y1f, hPx, hPy, h1x, h1y⟩ <;>
        subst hPx <;> subst hPy
      · show (⟨some x2f, some y2f, Pa, Pb⟩ :
            EllipticCurve).identity.add _ ≠ _
        rw [identity_add p _ hQr]
        simp
      · by_cases hxeq : x1f = x2f
        · subst hxeq
          by_cases hyeq : y1f = y2f
          · subst hyeq
            by_cases hy0 : y1f.num = 0
            · rw [add_self_y_zero _ _ _ _ hy0]
              simp
            · obtain ⟨s, hdiv⟩ := div_ok_of_ne_zero
                (FieldElement.new
                  ((3 * (x1f.num ^ 2 % Pa.prime) % Pa.prime + Pa.num)
                    % Pa.prime) Pa.prime)
                (FieldElement.new (2 * y1f.num % Pa.prime) Pa.prime)
                (by
                  show 2 * y1f.num % Pa.prime % Pa.prime ≠ 0
                  rw [hap]
                  exact two_mul_emod_ne_zero hop
                    (by rcases h1y.2.1.lt_or_eq with h | h
                        · exact h
                        · exact absurd h.symm hy0) h1y.2.2)
              intro hc
              rw [EllipticCurve.add, if_neg (not_not_intro ⟨rfl, rfl⟩),
                if_neg (by simp : ¬(some x1f = none)),
                if_neg (by simp : ¬(some x1f = none)),
                if_neg (not_not_intro rfl), if_pos rfl] at hc
              rw [show (⟨some x1f, some y1f, Pa, Pb⟩ :
                  EllipticCurve).y = some y1f from rfl] at hc
              rw [show ((⟨some x1f, some y1f, Pa, Pb⟩ :
                  EllipticCurve).tangent_slope) = (FieldElement.div
                    (FieldElement.new
                      ((3 * (x1f.num ^ 2 % Pa.prime) % Pa.prime + Pa.num)
                        % Pa.prime) Pa.prime)
                    (FieldElement.new (2 * y1f.num % Pa.prime)
                      Pa.prime)).map some from rfl, hdiv] at hc
              simp only [if_neg hy0, Except.map] at hc
              exact absurd (new_error_on_curve _ _ _ _ _ hc) (by simp)
          · rw [add_vertical _ _ _ _ _ hyeq]
            simp
        · have hxnum : x1f.num ≠ x2f.num :=
            fun h => hxeq (fe_eq_of_num_eq h1x h2x h)
          obtain ⟨s, hdiv⟩ := div_ok_of_ne_zero
            (FieldElement.new ((y2f.num - y1f.num) % Pa.prime) Pa.prime)
            (FieldElement.new ((x2f.num - x1f.num) % Pa.prime) Pa.prime)
            (by
              show (x2f.num - x1f.num) % Pa.prime % Pa.prime ≠ 0
              rw [hap]
              exact diff_emod_ne_zero h1x.2.1 h1x.2.2 h2x.2.1 h2x.2.2
                (Ne.symm hxnum))
          rw [add_chord_raw x1f y1f x2f y2f Pa Pb s hxeq hdiv]
          intro hc
          exact absurd (new_error_on_curve _ _ _ _ _ hc) (by simp)
  · show EllipticCurve.add _ _ ≠ _
    rw [EllipticCurve.add, if_pos (show ¬((⟨Px, Py, Pa, Pb⟩ :
        EllipticCurve).a = Qa ∧ (⟨Px, Py, Pa, Pb⟩ :
        EllipticCurve).b = Qb) from hab)]
    simp

/-- Witness for C9 at `p = 223`, `P = (192, 105)`, `Q = (17, 56)`. -/
theorem add_never_division_by_zero_witness :
    Odd 223 ∧
      Reduced 223 ⟨some (fe223 192), some (fe223 105), fe223 0, fe223 7⟩ ∧
      Reduced 223 ⟨some (fe223 17), some (fe223 56), fe223 0, fe223 7⟩ ∧
      EllipticCurve.add ⟨some (fe223 192), some (fe223 105), fe223 0, fe223 7⟩
          ⟨some (fe223 17), some (fe223 56), fe223 0, fe223 7⟩
        ≠ .error .DivisionByZero :=
  ⟨⟨111, by norm_num⟩, ⟨by decide, by decide, by decide, by decide⟩,
    ⟨by decide, by decide, by decide, by decide⟩,
    add_never_division_by_zero 223 ⟨111, by norm_num⟩ _ _
      ⟨by decide, by decide, by decide, by decide⟩
      ⟨by decide, by decide, by decide, by decide⟩⟩

/-- C5: the distinct-abscissa case of addition computes the chord formulas
`x₃ = L² − x₁ − x₂`, `y₃ = L·(x₁ − x₃) − y₁` over `ZMod p`, where `L` is
the chord slope (the unique field solution of `L·(x₂ − x₁) = y₂ − y₁`);
and the three concrete vectors of the repository's tests on the curve
`p = 223`, `a = 0`, `b = 7` hold. -/
theorem add_distinct_x_is_chord (p : Nat) [hF : Fact p.Prime]
    (x1f y1f x2f y2f aF bF : FieldElement)
    (hap : aF.prime = (p : Int)) (hbp : bF.prime = (p : Int))
    (h1x : feWF p x1f) (h1y : feWF p y1f)
    (h2x : feWF p x2f) (h2y : feWF p y2f)
    (hx : x1f.num ≠ x2f.num)
    (hE1 : ((y1f.num : ZMod p)) ^ 2
      = ((x1f.num : ZMod p)) ^ 3 + (aF.num : ZMod p) * (x1f.num : ZMod p)
        + (bF.num : ZMod p))
    (hE2 : ((y2f.num : ZMod p)) ^ 2
      = ((x2f.num : ZMod p)) ^ 3 + (aF.num : ZMod p) * (x2f.num : ZMod p)
        + (bF.num : ZMod p)) :
    (∃ (x3f y3f : FieldElement) (L : ZMod p),
      EllipticCurve.add ⟨some x1f, some y1f, aF, bF⟩
          ⟨some x2f, some y2f, aF, bF⟩
        = .ok ⟨some x3f, some y3f, aF, bF⟩ ∧
      L * ((x2f.num : ZMod p) - (x1f.num : ZMod p))
        = (y2f.num : ZMod p) - (y1f.num : ZMod p) ∧
      (x3f.num : ZMod p)
        = L ^ 2 - (x1f.num : ZMod p) - (x2f.num : ZMod p) ∧
      (y3f.num : ZMod p)
        = L * ((x1f.num : ZMod p) - (x3f.num : ZMod p))
          - (y1f.num : ZMod p))
    ∧ (do
        let A ← pt223 192 105
        let B ← pt223 17 56
        A.add B : Except ECError EllipticCurve) = pt223 170 142
    ∧ (do
        let A ← pt223 47 71
        let B ← pt223 117 141
        A.add B : Except ECError EllipticCurve) = pt223 60 139
    ∧ (do
        let A ← pt223 143 98
        let B ← pt223 76 66
        A.add B : Except ECError EllipticCurve) = pt223 47 71 := by
  refine ⟨?_, by decide, by decide, by decide⟩
  have hE1' : (toW p aF bF).Equation (x1f.num : ZMod p) (y1f.num : ZMod p) := by
    rw [WeierstrassCurve.Affine.equation_iff]
    simp only [toW]
    linear_combination hE1
  have hE2' : (toW p aF bF).Equation (x2f.num : ZMod p) (y2f.num : ZMod p) := by
    rw [WeierstrassCurve.Affine.equation_iff]
    simp only [toW]
    linear_combination hE2
  obtain ⟨x3f, y3f, hadd, h3x, h3y, hX, hY⟩ :=
    add_chord p x1f y1f x2f y2f aF bF hap hbp h1x h1y h2x h2y hx hE1' hE2'
  have hxc : (x1f.num : ZMod p) ≠ (x2f.num : ZMod p) := fun h =>
    hx (int_eq_of_cast_eq h1x.2.1 h1x.2.2 h2x.2.1 h2x.2.2 h)
  have hne : ((x1f.num : ZMod p) - (x2f.num : ZMod p)) ≠ 0 :=
    sub_ne_zero_of_ne hxc
  refine ⟨x3f, y3f,
    (toW p aF bF).slope (x1f.num : ZMod p) (x2f.num : ZMod p)
      (y1f.num : ZMod p) (y2f.num : ZMod p), hadd, ?_, ?_, ?_⟩
  · rw [WeierstrassCurve.Affine.slope_of_X_ne hxc]
    field_simp
    ring
  · rw [hX]
    simp only [WeierstrassCurve.Affine.addX, toW]
    ring
  · rw [hY, hX]
    simp only [WeierstrassCurve.Affine.addY,
      WeierstrassCurve.Affine.negAddY, WeierstrassCurve.Affine.negY,
      WeierstrassCurve.Affine.addX, toW]
    ring

/-- Witness for C5 at `p = 223`, `(192, 105) + (17, 56)`. -/
theorem add_distinct_x_is_chord_witness :
    feWF 223 (fe223 192) ∧ feWF 223 (fe223 105) ∧
      feWF 223 (fe223 17) ∧ feWF 223 (fe223 56) ∧
      (fe223 192).num ≠ (fe223 17).num ∧
      (((fe223 105).num : ZMod 223)) ^ 2
        = (((fe223 192).num : ZMod 223)) ^ 3
          + ((fe223 0).num : ZMod 223) * ((fe223 192).num : ZMod 223)
          + ((fe223 7).num : ZMod 223) ∧
      ∃ (x3f y3f : FieldElement) (L : ZMod 223),
        EllipticCurve.add
            ⟨some (fe223 192), some (fe223 105), fe223 0, fe223 7⟩
            ⟨some (fe223 17), some (fe223 56), fe223 0, fe223 7⟩
          = .ok ⟨some x3f, some y3f, fe223 0, fe223 7⟩ ∧
        L * (((fe223 17).num : ZMod 223) - ((fe223 192).num : ZMod 223))
          = ((fe223 56).num : ZMod 223) - ((fe223 105).num : ZMod 223) ∧
        (x3f.num : ZMod 223)
          = L ^ 2 - ((fe223 192).num : ZMod 223)
            - ((fe223 17).num : ZMod 223) ∧
        (y3f.num : ZMod 223)
          = L * (((fe223 192).num : ZMod 223) - (x3f.num : ZMod 223))
            - ((fe223 105).num : ZMod 223) := by
  have h1 : feWF 223 (fe223 192) := by decide
  have h2 : feWF 223 (fe223 105) := by decide
  have h3 : feWF 223 (fe223 17) := by decide
  have h4 : feWF 223 (fe223 56) := by decide
  have h5 : (fe223 192).num ≠ (fe223 17).num := by decide
  have h6 : (((fe223 105).num : ZMod 223)) ^ 2
      = (((fe223 192).num : ZMod 223)) ^ 3
        + ((fe223 0).num : ZMod 223) * ((fe223 192).num : ZMod 223)
        + ((fe223 7).num : ZMod 223) := by decide
  have h7 : (((fe223 56).num : ZMod 223)) ^ 2
      = (((fe223 17).num : ZMod 223)) ^ 3
        + ((fe223 0).num : ZMod 223) * ((fe223 17).num : ZMod 223)
        + ((fe223 7).num : ZMod 223) := by decide
  haveI hfact : Fact (Nat.Prime 223) := ⟨by norm_num⟩
  exact ⟨h1, h2, h3, h4, h5, h6,
    (add_distinct_x_is_chord 223 (fe223 192) (fe223 105) (fe223 17)
      (fe223 56) (fe223 0) (fe223 7) (by decide) (by decide)
      h1 h2 h3 h4 h5 h6 h7).1⟩

/-- Folding the embedded nested remainders of the curve equation into a
single remainder. -/
theorem curve_rhs_emod (x a b q : Int) :
    ((x ^ 3 % q + a * x % q) % q + b) % q = (x ^ 3 + a * x + b) % q := by
  have hx3 : x ^ 3 % q ≡ x ^ 3 [ZMOD q] := Int.emod_emod_of_dvd _ dvd_rfl
  have hax : a * x % q ≡ a * x [ZMOD q] := Int.emod_emod_of_dvd _ dvd_rfl
  have h0 : (x ^ 3 % q + a * x % q) % q
      ≡ x ^ 3 % q + a * x % q [ZMOD q] := Int.emod_emod_of_dvd _ dvd_rfl
  have h2 : (x ^ 3 % q + a * x % q) % q + b
      ≡ x ^ 3 + a * x + b [ZMOD q] := (h0.trans (hx3.add hax)).add_right b
  exact h2

/-- C4: with both coordinates present the constructor validates the curve
equation `y² ≡ x³ + a·x + b (mod p)`, returning the finite point exactly
when it holds and failing with `PointNotOnCurve` otherwise; with both
absent it returns the identity unconditionally; and on the curve
`p = 223`, `a = 0`, `b = 7` the points `(200, 119)` and `(42, 99)` are
rejected with `PointNotOnCurve`. -/
theorem new_validates_curve_equation (x y a b : FieldElement) (q : Int)
    (hx : x.prime = q) (hy : y.prime = q) (ha : a.prime = q) :
    (EllipticCurve.new (some x) (some y) a b
      = if y.num ^ 2 % q = (x.num ^ 3 + a.num * x.num + b.num) % q
        then .ok ⟨some x, some y, a, b⟩ else .error .PointNotOnCurve)
    ∧ EllipticCurve.new none none a b = .ok ⟨none, none, a, b⟩
    ∧ pt223 200 119 = .error .PointNotOnCurve
    ∧ pt223 42 99 = .error .PointNotOnCurve := by
  refine ⟨?_, rfl, by decide, by decide⟩
  have hcond : (EllipticCurve.is_valid ⟨some x, some y, a, b⟩ = true)
      ↔ y.num ^ 2 % q = (x.num ^ 3 + a.num * x.num + b.num) % q := by
    show (decide (y.pow 2 = x.pow 3 + a * x + b) = true) ↔ _
    rw [decide_eq_true_iff]
    show (⟨powMod y.num 2 y.prime, y.prime⟩ : FieldElement)
        = ⟨((powMod x.num 3 x.prime + a.num * x.num % a.prime) % x.prime
            + b.num) % x.prime, x.prime⟩ ↔ _
    rw [FieldElement.mk.injEq, hx, hy, ha, powMod_eq, powMod_eq,
      curve_rhs_emod]
    simp
  show (if EllipticCurve.is_valid ⟨some x, some y, a, b⟩ = true
      then Except.ok (⟨some x, some y, a, b⟩ : EllipticCurve)
      else Except.error ECError.PointNotOnCurve) = _
  by_cases hc : y.num ^ 2 % q = (x.num ^ 3 + a.num * x.num + b.num) % q
  · rw [if_pos (hcond.mpr hc), if_pos hc]
  · rw [if_neg (fun hh => hc (hcond.mp hh)), if_neg hc]

/-- Witness for C4 at `p = 223`, `(192, 105)` (an on-curve input). -/
theorem new_validates_curve_equation_witness :
    (fe223 192).prime = (223 : Int) ∧ (fe223 105).prime = (223 : Int) ∧
      (fe223 0).prime = (223 : Int) ∧
      ((EllipticCurve.new (some (fe223 192)) (some (fe223 105))
          (fe223 0) (fe223 7)
        = if (fe223 105).num ^ 2 % 223
            = ((fe223 192).num ^ 3 + (fe223 0).num * (fe223 192).num
              + (fe223 7).num) % 223
          then .ok ⟨some (fe223 192), some (fe223 105), fe223 0, fe223 7⟩
          else .error .PointNotOnCurve)
      ∧ EllipticCurve.new none none (fe223 0) (fe223 7)
          = .ok ⟨none, none, fe223 0, fe223 7⟩
      ∧ pt223 200 119 = .error .PointNotOnCurve
      ∧ pt223 42 99 = .error .PointNotOnCurve) :=
  ⟨rfl, rfl, rfl,
    new_validates_curve_equation (fe223 192) (fe223 105) (fe223 0) (fe223 7)
      223 rfl rfl rfl⟩

/-- Witness for C8 at `p = 223`, `(192, 105)` and `(17, 56)`. -/
theorem add_commutative_witness :
    Reduced 223 ⟨some (fe223 192), some (fe223 105), fe223 0, fe223 7⟩ ∧
      Reduced 223 ⟨some (fe223 17), some (fe223 56), fe223 0, fe223 7⟩ ∧
      EllipticCurve.add ⟨some (fe223 192), some (fe223 105), fe223 0, fe223 7⟩
          ⟨some (fe223 17), some (fe223 56), fe223 0, fe223 7⟩
        = EllipticCurve.add ⟨some (fe223 17), some (fe223 56), fe223 0, fe223 7⟩
          ⟨some (fe223 192), some (fe223 105), fe223 0, fe223 7⟩ := by
  have h1 : Reduced 223
      ⟨some (fe223 192), some (fe223 105), fe223 0, fe223 7⟩ :=
    ⟨by decide, by decide, by decide, by decide⟩
  have h2 : Reduced 223
      ⟨some (fe223 17), some (fe223 56), fe223 0, fe223 7⟩ :=
    ⟨by decide, by decide, by decide, by decide⟩
  haveI hfact : Fact (Nat.Prime 223) := ⟨by norm_num⟩
  exact ⟨h1, h2, add_commutative 223 _ _ h1 h2 rfl rfl⟩
